import Mathlib

/-!
Verification development for the protein_web docking backend
(src/backend/pipeline.py, src/backend/main.py, src/backend/progress_checker.py).

The Python source is shallowly embedded:

* text lines are `List Char` (a Python `str`), files are `List (List Char)`;
* Python `float` values coming from parsing decimal literals are modelled as
  exact rationals `ℚ` (the claims under study never depend on the rounding of
  an individual IEEE double, only on comparisons and counts that the decimal
  literals determine exactly);
* 3-D atom coordinates are modelled over `ℝ` (`EuclideanSpace ℝ (Fin 3)`),
  i.e. the numpy float arithmetic of `combine_in_python` is modelled exactly;
* code that can raise returns `Option`/`Except`;
* filesystem state read by the code (the concurrently written `docking.fasc`,
  the globbed candidate structure files) is passed in as an explicit
  parameter/oracle.
-/

/-! ## String preliminaries (Python str operations) -/

/-- Characters accepted by Python's `str.split()` / `\s` (ASCII subset). -/
def isPySpace (c : Char) : Bool :=
  c = ' ' || c = '\t' || c = '\n' || c = '\x0d' || c = '\x0b' || c = '\x0c'

/-- ASCII decimal digit, as matched by `\d` on this data. -/
def isPyDigit (c : Char) : Bool :=
  '0' ≤ c && c ≤ '9'

/-- Python `sub in s` (substring containment). -/
def containsSub (pat : List Char) : List Char → Bool
  | [] => pat.isEmpty
  | c :: rest => pat.isPrefixOf (c :: rest) || containsSub pat rest

/-- Python `s.startswith(p)`. -/
def pyStartsWith (p : List Char) (s : List Char) : Bool :=
  p.isPrefixOf s

/-- Python `s.split()`: split on whitespace runs, discarding empty pieces. -/
def pySplit (s : List Char) : List (List Char) :=
  (s.splitOnP isPySpace).filter (fun t => !t.isEmpty)

/-- Python `s.strip()` for the strings at hand (whitespace strip, both ends). -/
def pyStrip (s : List Char) : List Char :=
  ((s.dropWhile isPySpace).reverse.dropWhile isPySpace).reverse

/-- Numeric value of an ASCII digit character. -/
def charVal (c : Char) : Nat := c.toNat - 48

/-- Value of a list of ASCII digit characters read in base 10. -/
def digitsToNat (ds : List Char) : Nat :=
  ds.foldl (fun a c => a * 10 + charVal c) 0

/-- Python `int(s)` for a non-empty string of ASCII digits, `none` otherwise
(sign-free form, which is all the embedded code ever feeds it). -/
def pyInt? (s : List Char) : Option Nat :=
  if s ≠ [] ∧ s.all isPyDigit then some (digitsToNat s) else none

/-- Rational value contributed by a digit string after the decimal point. -/
def fracVal (ds : List Char) : ℚ :=
  (digitsToNat ds : ℚ) / (10 : ℚ) ^ ds.length

/-- Helper for `pyFloat?`: parse an optional exponent suffix `[eE][+-]?digits`
and apply it to the mantissa value. -/
def pyFloatExp? (v : ℚ) : List Char → Option ℚ
  | [] => some v
  | e :: rest =>
    if e = 'e' ∨ e = 'E' then
      match rest with
      | '+' :: ds => if ds ≠ [] ∧ ds.all isPyDigit then some (v * (10 : ℚ) ^ (digitsToNat ds)) else none
      | '-' :: ds => if ds ≠ [] ∧ ds.all isPyDigit then some (v / (10 : ℚ) ^ (digitsToNat ds)) else none
      | ds => if ds ≠ [] ∧ ds.all isPyDigit then some (v * (10 : ℚ) ^ (digitsToNat ds)) else none
    else none

/-- Helper for `pyFloat?`: parse an unsigned decimal `digits[.digits][exp]`,
`.digits[exp]` or `digits.[exp]`. -/
def pyFloatUnsigned? (s : List Char) : Option ℚ :=
  let ip := s.takeWhile isPyDigit
  let r := s.dropWhile isPyDigit
  match r with
  | '.' :: r2 =>
    let fp := r2.takeWhile isPyDigit
    let r3 := r2.dropWhile isPyDigit
    if ip = [] ∧ fp = [] then none
    else pyFloatExp? ((digitsToNat ip : ℚ) + fracVal fp) r3
  | r2 => if ip = [] then none else pyFloatExp? (digitsToNat ip : ℚ) r2

/-- Python `float(s)` on whitespace-free tokens, modelled as an exact rational.
Covers the decimal-literal forms produced by the docking engine's score
tables (`-123.456`, `1e-3`, `7.`, `.5`, …); special forms such as `inf`,
`nan` or underscore separators are out of the modelled subset and parse to
`none`. -/
def pyFloat? (s : List Char) : Option ℚ :=
  match s with
  | '+' :: r => pyFloatUnsigned? r
  | '-' :: r => (pyFloatUnsigned? r).map (fun v => -v)
  | r => pyFloatUnsigned? r

/-! ## Score table parser (pipeline.py, `extract_index` / `parse_fasc_all_models`
/ `parse_fasc_and_find_best`) -/

/-- From pipeline.py `extract_index` (lines 68-73): extract the numeric suffix
of `re.search(r"_(\d+)$", desc)`, e.g. `3` from `complex_input_full_0003`. -/
def extract_index (desc : List Char) : Option Nat :=
  let revDigits := desc.reverse.takeWhile isPyDigit
  match desc.reverse.dropWhile isPyDigit with
  | '_' :: _ => if revDigits = [] then none else some (digitsToNat revDigits.reverse)
  | _ => none

/-- A parsed score record. pipeline.py builds untyped dicts; following the
spec's data model (§3, §9) each dict is embedded as a record with named
optional fields: `cols` is the column-name/value association built from the
header, `score` is the dict's final `"score"` entry, which is always
assigned (line 165 of pipeline.py), possibly to `None`. -/
structure ScoreRecord where
  cols : List (List Char × Option ℚ)
  desc : List Char
  index : Option Nat
  score : Option ℚ
  pdbPath : Option (List Char)
  deriving Repr, DecidableEq

/-- Python `model.get(key)` on the column dict: later assignments win. -/
def colGet (key : List Char) (cols : List (List Char × Option ℚ)) : Option (Option ℚ) :=
  (cols.reverse.find? (fun kv => kv.1 = key)).map (fun kv => kv.2)

/-- The fixed marker of score-table rows. -/
def scoreMarker : List Char := "SCORE:".data

/-- The sentinel column name identifying the header row. -/
def totalScoreCol : List Char := "total_score".data

/-- pipeline.py lines 99-105: index of the first line that starts with
`SCORE:` and contains `total_score`. -/
def findHeaderIdx : List (List Char) → Option Nat
  | [] => none
  | l :: ls =>
    if pyStartsWith scoreMarker l && containsSub totalScoreCol l then some 0
    else (findHeaderIdx ls).map (· + 1)

/-- pipeline.py lines 112-121: the ordered column names, i.e. the header
tokens strictly between the `SCORE:` marker and the `description` token
(all tokens after the marker when `description` is absent or first). -/
def headerColumns (headerLine : List Char) : List (List Char) :=
  let headerParts := pySplit headerLine
  match headerParts.findIdx? (fun p => p = "description".data) with
  | some i => if 0 < i then (headerParts.take i).drop 1 else headerParts.drop 1
  | none => headerParts.drop 1

/-- pipeline.py lines 126-131: the index → structure-file map built from the
globbed candidate files.  The filesystem glob is external state, so the list
of candidate file stems is an explicit parameter; `sorted(...)` ordering and
the last-wins overwrite of duplicate indices are preserved. -/
def buildPdbMap (candidates : List (List Char)) : List (Nat × List Char) :=
  candidates.foldl
    (fun m c => match extract_index c with
      | some idx => m ++ [(idx, c)]
      | none => m) []

/-- Lookup in the pdb map (`idx in pdb_map` then `pdb_map[idx]`: last write
wins, as in a Python dict). -/
def pdbMapGet (idx : Nat) (m : List (Nat × List Char)) : Option (List Char) :=
  (m.reverse.find? (fun kv => kv.1 = idx)).map (fun kv => kv.2)

/-- pipeline.py lines 134-174, body of the data-row loop: parse one line into
a record, or `none` when the line is skipped (not `SCORE:`-marked, contains
`total_score`, or has fewer than 3 whitespace tokens). -/
def parseDataRow (columnNames : List (List Char)) (pdbMap : List (Nat × List Char))
    (line : List Char) : Option ScoreRecord :=
  if !pyStartsWith scoreMarker line || containsSub totalScoreCol line then none
  else
    let parts := pySplit line
    if parts.length < 3 then none
    else
      let numDataValues := parts.length - 2
      let cols := columnNames.enum.map (fun ic =>
        if ic.1 < numDataValues then (ic.2, pyFloat? ((parts.drop (ic.1 + 1)).headD []))
        else (ic.2, none))
      let desc := parts.getLastD []
      let idx := extract_index desc
      let score : Option ℚ :=
        match colGet totalScoreCol cols with
        | some v => v
        | none => some 0
      let pdbPath :=
        match idx with
        | some i => pdbMapGet i pdbMap
        | none => none
      some { cols := cols, desc := desc, index := idx, score := score, pdbPath := pdbPath }

/-- pipeline.py `parse_fasc_all_models` (lines 76-179).  `lines` is the
content of the `.fasc` file split into lines; `candidates` are the stems of
the files matched by the structure glob (external filesystem state).
`Except.error` models the raised `RuntimeError`s. -/
def parse_fasc_all_models (lines : List (List Char)) (candidates : List (List Char)) :
    Except (List Char) (List ScoreRecord) :=
  match findHeaderIdx lines with
  | none => .error "Could not find SCORE header line in docking.fasc".data
  | some headerIdx =>
    let headerLine := (lines.drop headerIdx).headD []
    let columnNames := headerColumns headerLine
    let pdbMap := buildPdbMap candidates
    match (lines.drop (headerIdx + 1)).filterMap (parseDataRow columnNames pdbMap) with
    | [] => .error "No SCORE lines parsed in docking.fasc.".data
    | m :: ms => .ok (m :: ms)

/-- Comparison `x["score"] < best["score"]` inside Python's `min`: comparing
`None` with anything raises `TypeError`. -/
def scoreLt (a b : Option ℚ) : Except (List Char) Bool :=
  match a, b with
  | some x, some y => .ok (decide (x < y))
  | _, _ => .error "TypeError: comparison with None".data

/-- Python `min(models, key=lambda x: x["score"])`: left fold keeping the
incumbent unless a strictly smaller key appears, so the first occurrence of
the minimum wins.  Raises (`Except.error`) when a comparison touches a
`None` score. -/
def pyMinByScore : List ScoreRecord → Except (List Char) ScoreRecord
  | [] => .error "ValueError: min() arg is an empty sequence".data
  | m :: ms => go m ms
where
  go (best : ScoreRecord) : List ScoreRecord → Except (List Char) ScoreRecord
    | [] => .ok best
    | x :: xs =>
      match scoreLt x.score best.score with
      | .error e => .error e
      | .ok true => go x xs
      | .ok false => go best xs

/-- pipeline.py `parse_fasc_and_find_best` (lines 182-205). -/
def parse_fasc_and_find_best (lines : List (List Char)) (candidates : List (List Char)) :
    Except (List Char) ScoreRecord :=
  match parse_fasc_all_models lines candidates with
  | .error e => .error e
  | .ok models => pyMinByScore models

/-- The value of an `Except` computation that did not raise. -/
def okValue? : Except ε α → Option α
  | .ok a => some a
  | .error _ => none

/-- A line that `parse_fasc_all_models` actually turns into a record: marked
with the `SCORE:` marker, free of the `total_score` sentinel, and carrying at
least three whitespace tokens. -/
def isDataRow (l : List Char) : Bool :=
  pyStartsWith scoreMarker l && !containsSub totalScoreCol l &&
    decide (3 ≤ (pySplit l).length)

/-- Count of all prefix-marked, non-header rows of a table — the row count
named by claim C3, which does not require a minimum token count nor that the
row come after the header. -/
def prefixMarkedNonHeaderCount (lines : List (List Char)) : Nat :=
  lines.countP (fun l => pyStartsWith scoreMarker l && !containsSub totalScoreCol l)

/-- The key used by `parse_fasc_and_find_best`'s `min`, defaulted for the
`None` case (the theorems about it assume all scores are numeric). -/
def scoreD (m : ScoreRecord) : ℚ := m.score.getD 0

/-! ## Lemmas about the score-table parser -/

theorem length_filterMap_eq_countP (f : α → Option β) (l : List α) :
    (l.filterMap f).length = l.countP (fun a => (f a).isSome) := by
  induction l with
  | nil => rfl
  | cons a l ih =>
    rw [List.filterMap_cons, List.countP_cons]
    cases h : f a <;> simp [h, ih]

theorem parseDataRow_isSome (cols : List (List Char)) (m : List (Nat × List Char))
    (l : List Char) : (parseDataRow cols m l).isSome = isDataRow l := by
  unfold parseDataRow isDataRow
  cases hA : pyStartsWith scoreMarker l <;> cases hB : containsSub totalScoreCol l <;>
    by_cases h3 : (pySplit l).length < 3 <;>
    simp [hA, hB, h3, Nat.not_lt.mp, Nat.not_le.mpr]

theorem parse_ok_decomp {lines candidates : List (List Char)} {ms : List ScoreRecord}
    {hidx : Nat} (hh : findHeaderIdx lines = some hidx)
    (h : parse_fasc_all_models lines candidates = .ok ms) :
    ms = (lines.drop (hidx + 1)).filterMap
      (parseDataRow (headerColumns ((lines.drop hidx).headD []))
        (buildPdbMap candidates)) ∧ ms ≠ [] := by
  simp only [parse_fasc_all_models, hh] at h
  split at h
  · exact absurd h (by simp)
  · next m rest hfm =>
    injection h with h2
    refine ⟨?_, ?_⟩
    · rw [← h2]; exact hfm.symm
    · rw [← h2]; simp

theorem parse_ok_length {lines candidates : List (List Char)} {ms : List ScoreRecord}
    {hidx : Nat} (hh : findHeaderIdx lines = some hidx)
    (h : parse_fasc_all_models lines candidates = .ok ms) :
    ms.length = (lines.drop (hidx + 1)).countP isDataRow := by
  rw [(parse_ok_decomp hh h).1, length_filterMap_eq_countP]
  exact List.countP_congr (fun l _ => by rw [parseDataRow_isSome])

theorem parse_ok_ne_nil {lines candidates : List (List Char)} {ms : List ScoreRecord}
    (h : parse_fasc_all_models lines candidates = .ok ms) : ms ≠ [] := by
  cases hidx : findHeaderIdx lines with
  | none =>
    simp only [parse_fasc_all_models, hidx] at h
    exact absurd h (by simp)
  | some i => exact (parse_ok_decomp hidx h).2

/-- `pyMinByScore.go best xs` returns the first element of `best :: xs` whose
score is minimal, provided every score is numeric: the returned record splits
the list, everything strictly before it has strictly larger score, and
nothing anywhere has smaller score. -/
theorem pyMin_go_spec (xs : List ScoreRecord) : ∀ best : ScoreRecord,
    best.score.isSome → (∀ x ∈ xs, x.score.isSome) →
    ∃ b pre post, pyMinByScore.go best xs = .ok b ∧
      best :: xs = pre ++ b :: post ∧
      (∀ y ∈ pre, scoreD b < scoreD y) ∧
      (∀ y ∈ best :: xs, scoreD b ≤ scoreD y) := by
  induction xs with
  | nil =>
    intro best _ _
    exact ⟨best, [], [], rfl, rfl, by simp, by simp⟩
  | cons x xs ih =>
    intro best hbest hall
    obtain ⟨bv, hbv⟩ := Option.isSome_iff_exists.mp hbest
    obtain ⟨xv, hxv⟩ := Option.isSome_iff_exists.mp (hall x (by simp))
    have htail : ∀ y ∈ xs, y.score.isSome := fun y hy => hall y (by simp [hy])
    have hgo : pyMinByScore.go best (x :: xs) =
        if xv < bv then pyMinByScore.go x xs else pyMinByScore.go best xs := by
      rw [pyMinByScore.go, hxv, hbv]
      unfold scoreLt
      by_cases hlt : xv < bv <;> simp [hlt]
    have hsx : scoreD x = xv := by simp [scoreD, hxv]
    have hsb : scoreD best = bv := by simp [scoreD, hbv]
    by_cases hlt : xv < bv
    · rw [if_pos hlt] at hgo
      obtain ⟨b, pre, post, hg, hsplit, hpre, hle⟩ := ih x (hall x (by simp)) htail
      refine ⟨b, best :: pre, post, hgo.trans hg, by rw [List.cons_append, ← hsplit], ?_, ?_⟩
      · intro y hy
        rcases List.mem_cons.mp hy with rfl | hy
        · exact lt_of_le_of_lt (by simpa [hsx] using hle x (by simp)) (by rw [hsb]; exact hlt)
        · exact hpre y hy
      · intro y hy
        rcases List.mem_cons.mp hy with rfl | hy
        · exact le_of_lt (lt_of_le_of_lt (by simpa [hsx] using hle x (by simp))
            (by rw [hsb]; exact hlt))
        · exact hle y hy
    · rw [if_neg hlt] at hgo
      have hble : bv ≤ xv := le_of_not_lt hlt
      obtain ⟨b, pre, post, hg, hsplit, hpre, hle⟩ := ih best hbest htail
      cases pre with
      | nil =>
        have hb : b = best := (by simpa using congrArg (fun l => l.headD b) hsplit : best = b).symm
        have hpost : post = xs := by
          simp only [List.nil_append] at hsplit
          exact (List.cons.injEq _ _ _ _ ▸ hsplit).2.symm ▸ rfl
        refine ⟨b, [], x :: xs, hgo.trans hg, by simp [hb], by simp, ?_⟩
        intro y hy
        rcases List.mem_cons.mp hy with rfl | hy
        · exact hle y (by simp)
        rcases List.mem_cons.mp hy with rfl | hy
        · rw [hb, hsb, hsx]; exact hble
        · exact hle y (by simp [hy])
      | cons p pre2 =>
        have hp : p = best := (by simpa using congrArg (fun l => l.headD p) hsplit : best = p).symm
        have hxs : xs = pre2 ++ b :: post := by
          simpa using congrArg List.tail hsplit
        have hblt : scoreD b < scoreD best := hpre p (by simp) |>.trans_eq (by rw [hp])
        refine ⟨b, best :: x :: pre2, post, hgo.trans hg, by simp [hxs], ?_, ?_⟩
        · intro y hy
          rcases List.mem_cons.mp hy with rfl | hy
          · exact hblt
          rcases List.mem_cons.mp hy with rfl | hy
          · rw [hsx]; exact lt_of_lt_of_le (hblt.trans_eq hsb) hble
          · exact hpre y (by simp [hy])
        · intro y hy
          rcases List.mem_cons.mp hy with rfl | hy
          · exact le_of_lt hblt
          rcases List.mem_cons.mp hy with rfl | hy
          · rw [hsx]; exact le_of_lt (lt_of_lt_of_le (hblt.trans_eq hsb) hble)
          · exact hle y (by simp [hy])

/-! ## Claim C2 and C3 statements -/

/-- A four-line score table matching the spec §8 example. -/
def fascExampleLines : List (List Char) :=
  ["SCORE: total_score description".data,
   "SCORE: -120.5 complex_input_full_0001".data,
   "SCORE: -135.2 complex_input_full_0003".data,
   "SCORE: -99.0 complex_input_full_0002".data]

/-- A table accepted by `parse_fasc_all_models` whose first data row carries
an unparsable total-score token, so that its record's normalized score is
`None` (`pipeline.py` line 155 stores `None`, and `model.get("total_score",
0.0)` at line 165 then returns that stored `None`, not the default). -/
def fascNoneScoreLines : List (List Char) :=
  ["SCORE: total_score description".data,
   "SCORE: abc m_0001".data,
   "SCORE: 5.0 m_0002".data]

/-- A table with a header and two prefix-marked non-header rows, one of which
has only two whitespace tokens and is silently dropped by the parser
(pipeline.py lines 139-140). -/
def fascShortRowLines : List (List Char) :=
  ["SCORE: total_score description".data,
   "SCORE: 5.0".data,
   "SCORE: 1.0 m_0001".data]

/-- A two-data-row table used as a concrete witness for C3. -/
def fascTwoRowLines : List (List Char) :=
  ["SCORE: total_score rms description".data,
   "SCORE: 4.5 1.0 model_0001".data,
   "SCORE: -2.25 0.5 model_0002".data]

/-- C2 counterexample: the claim says that for every table accepted by
`parseAll`, `findBest` returns the record of minimal score.  On
`fascNoneScoreLines` the table is accepted (parseAll returns records), but
`parse_fasc_and_find_best` raises `TypeError` inside Python's `min` when the
`None` score of the first record is compared with `5.0`, returning no record
at all. -/
theorem claim_C2_cex :
    (okValue? (parse_fasc_all_models fascNoneScoreLines [])).isSome = true ∧
    ∀ r : ScoreRecord, parse_fasc_and_find_best fascNoneScoreLines [] ≠ .ok r := by
  refine ⟨rfl, fun r h => ?_⟩
  rw [show parse_fasc_and_find_best fascNoneScoreLines [] =
    Except.error "TypeError: comparison with None".data from rfl] at h
  exact Except.noConfusion h

/-- C2 (amended): for every score table accepted by `parseAll` all of whose
parsed records carry a numeric (non-null) normalized score,
`parse_fasc_and_find_best` returns the record whose score is minimal among
all parsed records, and when several records share the minimal score it
returns the one occurring first in file order (every earlier record has
strictly larger score). -/
theorem claim_C2 (lines candidates : List (List Char)) (models : List ScoreRecord)
    (hok : parse_fasc_all_models lines candidates = .ok models)
    (hnum : ∀ m ∈ models, m.score.isSome) :
    ∃ best pre post, parse_fasc_and_find_best lines candidates = .ok best ∧
      models = pre ++ best :: post ∧
      (∀ y ∈ pre, scoreD best < scoreD y) ∧
      (∀ y ∈ models, scoreD best ≤ scoreD y) := by
  have hne := parse_ok_ne_nil hok
  cases hm : models with
  | nil => exact absurd hm hne
  | cons m ms =>
    subst hm
    obtain ⟨b, pre, post, hg, hsplit, hpre, hle⟩ :=
      pyMin_go_spec ms m (hnum m (by simp)) (fun y hy => hnum y (by simp [hy]))
    refine ⟨b, pre, post, ?_, hsplit, hpre, hle⟩
    simp only [parse_fasc_and_find_best, hok]
    exact hg

/-- Concrete instantiation of `claim_C2` on the spec §8 example table: the
best record exists, all hypotheses hold, and the returned split satisfies
the minimality conditions. -/
theorem claim_C2_witness :
    ∃ best pre post, parse_fasc_and_find_best fascExampleLines [] = .ok best ∧
      (okValue? (parse_fasc_all_models fascExampleLines [])).getD [] =
        pre ++ best :: post ∧
      (∀ y ∈ pre, scoreD best < scoreD y) ∧
      (∀ y ∈ (okValue? (parse_fasc_all_models fascExampleLines [])).getD [],
        scoreD best ≤ scoreD y) :=
  claim_C2 fascExampleLines [] _ rfl (by decide)

/-- C3 counterexample: the claim counts all prefix-marked, non-header rows as
data rows; `fascShortRowLines` has two of them, but `parse_fasc_all_models`
returns a single record, because the two-token row `SCORE: 5.0` is dropped
by the minimum-token guard. -/
theorem claim_C3_cex :
    (okValue? (parse_fasc_all_models fascShortRowLines [])).map List.length ≠
      some (prefixMarkedNonHeaderCount fascShortRowLines) := by
  decide

/-- C3 (amended): for every score table with a header row and, after it,
N ≥ 1 data rows — prefix-marked rows not containing the total-score sentinel
and carrying at least three whitespace tokens — `parse_fasc_all_models`
returns a list of exactly N records.  (Each returned record contains a
`score` field by construction: the embedding's `ScoreRecord.score` models
the dict key that pipeline.py line 165 always assigns.) -/
theorem claim_C3 (lines candidates : List (List Char)) (hidx : Nat)
    (hh : findHeaderIdx lines = some hidx)
    (hpos : 0 < (lines.drop (hidx + 1)).countP isDataRow) :
    ∃ ms, parse_fasc_all_models lines candidates = .ok ms ∧
      ms.length = (lines.drop (hidx + 1)).countP isDataRow := by
  rcases hp : parse_fasc_all_models lines candidates with e | ms
  · exfalso
    simp only [parse_fasc_all_models, hh] at hp
    split at hp
    · next hfm =>
      have := length_filterMap_eq_countP
        (parseDataRow (headerColumns ((lines.drop hidx).headD [])) (buildPdbMap candidates))
        (lines.drop (hidx + 1))
      rw [hfm] at this
      rw [List.countP_congr (fun l _ => by rw [parseDataRow_isSome])] at this
      simp only [List.length_nil] at this
      omega
    · exact Except.noConfusion hp
  · exact ⟨ms, rfl, parse_ok_length hh hp⟩

/-- Concrete instantiation of `claim_C3` on a two-data-row table: the header
is found at index 0, both rows qualify, and exactly two records return. -/
theorem claim_C3_witness :
    ∃ ms, parse_fasc_all_models fascTwoRowLines [] = .ok ms ∧
      ms.length = (fascTwoRowLines.drop 1).countP isDataRow :=
  claim_C3 fascTwoRowLines [] 0 (by decide) (by decide)

/-! ## Digit rendering (Python `f"{n:4d}"` and `int(...)` round trips) -/

/-- The ASCII character of a decimal digit. -/
def digitChar (d : Nat) : Char :=
  if d = 0 then '0' else if d = 1 then '1' else if d = 2 then '2' else if d = 3 then '3'
  else if d = 4 then '4' else if d = 5 then '5' else if d = 6 then '6' else if d = 7 then '7'
  else if d = 8 then '8' else '9'

/-- Decimal digits, fuel-bounded helper (the fuel always exceeds `n`, so the
out-of-fuel branch is unreachable). -/
def natDigitsAux : Nat → Nat → List Char
  | 0, _ => []
  | fuel + 1, n =>
    if n < 10 then [digitChar n] else natDigitsAux fuel (n / 10) ++ [digitChar (n % 10)]

/-- Decimal digits of a natural number, most significant first. -/
def natDigits (n : Nat) : List Char := natDigitsAux (n + 1) n

/-- Python `f"{n:4d}"` for a natural number: right-justify in width 4. -/
def fmtResseq (n : Nat) : List Char :=
  List.replicate (4 - (natDigits n).length) ' ' ++ natDigits n

theorem charVal_digitChar (d : Nat) (h : d < 10) : charVal (digitChar d) = d := by
  interval_cases d <;> decide

theorem isPyDigit_digitChar (d : Nat) : isPyDigit (digitChar d) = true := by
  unfold digitChar
  split
  · decide
  split
  · decide
  split
  · decide
  split
  · decide
  split
  · decide
  split
  · decide
  split
  · decide
  split
  · decide
  split
  · decide
  · decide

theorem digitsToNat_append_one (l : List Char) (c : Char) :
    digitsToNat (l ++ [c]) = digitsToNat l * 10 + charVal c := by
  simp [digitsToNat, List.foldl_append]

theorem digitsToNat_natDigitsAux :
    ∀ fuel n, n < fuel → digitsToNat (natDigitsAux fuel n) = n := by
  intro fuel
  induction fuel with
  | zero => intro n h; omega
  | succ fuel ih =>
    intro n hf
    rw [natDigitsAux]
    split
    · next h => simp [digitsToNat, charVal_digitChar n h]
    · next h =>
      have hdiv : n / 10 < n := Nat.div_lt_self (by omega) (by omega)
      rw [digitsToNat_append_one, ih (n / 10) (by omega),
        charVal_digitChar _ (Nat.mod_lt _ (by omega))]
      omega

theorem digitsToNat_natDigits (n : Nat) : digitsToNat (natDigits n) = n :=
  digitsToNat_natDigitsAux (n + 1) n (by omega)

theorem natDigitsAux_all_digits :
    ∀ fuel n, n < fuel → (natDigitsAux fuel n).all isPyDigit = true := by
  intro fuel
  induction fuel with
  | zero => intro n h; omega
  | succ fuel ih =>
    intro n hf
    rw [natDigitsAux]
    split
    · simp [isPyDigit_digitChar]
    · next h =>
      have hdiv : n / 10 < n := Nat.div_lt_self (by omega) (by omega)
      rw [List.all_append]
      simp [isPyDigit_digitChar, ih (n / 10) (by omega)]

theorem natDigits_all_digits (n : Nat) : (natDigits n).all isPyDigit = true :=
  natDigitsAux_all_digits (n + 1) n (by omega)

theorem natDigitsAux_length_le :
    ∀ fuel k n, n < fuel → n < 10 ^ k → 1 ≤ k → (natDigitsAux fuel n).length ≤ k := by
  intro fuel
  induction fuel with
  | zero => intro k n h _ _; omega
  | succ fuel ih =>
    intro k n hf hn hk1
    rw [natDigitsAux]
    split
    · simpa using hk1
    · next h =>
      have hk : 1 ≤ k := by
        by_contra hk0
        have : k = 0 := by omega
        subst this
        simp at hn
        omega
      have hk2 : 2 ≤ k := by
        by_contra hk1
        have : k = 1 := by omega
        subst this
        simp at hn
        omega
      have hdiv : n / 10 < n := Nat.div_lt_self (by omega) (by omega)
      have hpow : n / 10 < 10 ^ (k - 1) := by
        rw [Nat.div_lt_iff_lt_mul (by omega)]
        calc n < 10 ^ k := hn
        _ = 10 ^ (k - 1) * 10 := by
            rw [← pow_succ]
            congr 1
            omega
      have := ih (k - 1) (n / 10) (by omega) hpow (by omega)
      rw [List.length_append]
      simp only [List.length_cons, List.length_nil]
      omega

theorem natDigits_length_le (k : Nat) : ∀ n, n < 10 ^ k → 1 ≤ k → (natDigits n).length ≤ k :=
  fun n hn hk => natDigitsAux_length_le (n + 1) k n (by omega) hn hk

theorem not_space_of_digit {c : Char} (h : isPyDigit c = true) : isPySpace c = false := by
  revert h
  unfold isPyDigit isPySpace
  intro h
  simp only [Bool.or_eq_false_iff, decide_eq_false_iff_not]
  simp only [Bool.and_eq_true, decide_eq_true_eq] at h
  refine ⟨⟨⟨⟨⟨?_, ?_⟩, ?_⟩, ?_⟩, ?_⟩, ?_⟩ <;>
    (intro he; rw [he] at h; revert h; decide)

theorem dropWhile_space_replicate (m : Nat) (l : List Char) :
    List.dropWhile isPySpace (List.replicate m ' ' ++ l) = List.dropWhile isPySpace l := by
  induction m with
  | zero => simp
  | succ m ih => simpa [List.replicate_succ, List.dropWhile_cons] using ih

theorem dropWhile_space_of_all_digits (ds : List Char) (h : ds.all isPyDigit = true) :
    List.dropWhile isPySpace ds = ds := by
  cases ds with
  | nil => rfl
  | cons d t =>
    rw [List.dropWhile_cons, not_space_of_digit (by simp [List.all_cons] at h; exact h.1)]
    simp

theorem pyStrip_fmtResseq (n : Nat) : pyStrip (fmtResseq n) = natDigits n := by
  unfold pyStrip fmtResseq
  rw [dropWhile_space_replicate, dropWhile_space_of_all_digits _ (natDigits_all_digits n),
    dropWhile_space_of_all_digits _ (by rw [List.all_reverse]; exact natDigits_all_digits n),
    List.reverse_reverse]

theorem fmtResseq_length (n : Nat) (h : n ≤ 9999) : (fmtResseq n).length = 4 := by
  have h4 : (natDigits n).length ≤ 4 :=
    natDigits_length_le 4 n (by omega) (by omega)
  simp only [fmtResseq, List.length_append, List.length_replicate]
  omega

/-! ## Chain normalizer (pipeline.py `normalize_chains`, lines 443-480) -/

/-- Python `line.startswith(("ATOM", "HETATM"))`. -/
def isAtomLine (l : List Char) : Bool :=
  pyStartsWith "ATOM".data l || pyStartsWith "HETATM".data l

/-- The fixed chain-label alphabet of `normalize_chains`. -/
def lettersList : List Char := "ABCDEFGHIJKLMNOPQRSTUVWXYZ".data

/-- The scan `while letters[next_idx] in used: next_idx += 1` followed by
`letters[next_idx]`: returns the first free letter at or after `idx`
together with its index, or `none` when the alphabet is exhausted (Python
raises `IndexError`).  The fuel (always called with 27) bounds the scan,
which in Python stops within 27 steps because the index grows and
`letters[26]` already raises. -/
def findFree (used : Finset Char) : Nat → Nat → Option (Char × Nat)
  | 0, _ => none
  | fuel + 1, idx =>
    match lettersList.get? idx with
    | none => none
    | some c => if c ∈ used then findFree used fuel (idx + 1) else some (c, idx)

/-- First-match lookup in the `chain_map` dict (keys are inserted at most
once, so first match is the dict lookup). -/
def mapLookup (k : Char) (m : List (Char × Char)) : Option Char :=
  (m.find? (fun kv => kv.1 = k)).map (fun kv => kv.2)

/-- State of the `normalize_chains` loop: the `chain_map` dict, the shared
`used` set, the scan position `next_idx`, and the trace of labels assigned
so far (the values of `chain_map` in insertion order). -/
structure NcState where
  chainMap : List (Char × Char)
  used : Finset Char
  nextIdx : Nat
  assigned : List Char

/-- pipeline.py lines 467-475: look the (possibly sentinel) source label up
in `chain_map`, assigning the next unused letter on a miss, and rewrite the
chain column of the line. -/
def ncAssign (l : List Char) (old : Char) (st : NcState) : Option (List Char × NcState) :=
  match mapLookup old st.chainMap with
  | some nc => some (l.take 21 ++ nc :: l.drop 22, st)
  | none =>
    match findFree st.used 27 st.nextIdx with
    | none => none
    | some (nc, idx) =>
      some (l.take 21 ++ nc :: l.drop 22,
        { chainMap := st.chainMap ++ [(old, nc)], used := insert nc st.used,
          nextIdx := idx + 1, assigned := st.assigned ++ [nc] })

/-- One iteration of the `normalize_chains` line loop.  `none` models the
Python exceptions: `line[21]` on a too-short atom record, or alphabet
exhaustion.  A blank chain column is replaced by the sentinel label `_`
(`old.strip() == ""` on a single character means it is whitespace). -/
def ncLine (l : List Char) (st : NcState) : Option (List Char × NcState) :=
  if isAtomLine l then
    match l.get? 21 with
    | none => none
    | some c21 => ncAssign l (if isPySpace c21 then '_' else c21) st
  else some (l, st)

/-- The full line loop of `normalize_chains`. -/
def ncGo : List (List Char) → NcState → Option (List (List Char) × NcState)
  | [], st => some ([], st)
  | l :: ls, st =>
    match ncLine l st with
    | none => none
    | some (l2, st2) =>
      match ncGo ls st2 with
      | none => none
      | some (rest, stf) => some (l2 :: rest, stf)

/-- pipeline.py `normalize_chains` (lines 443-480): returns the rewritten
lines, the updated shared `used` pool, and the trace of labels assigned
during this call.  `next_idx` starts at `len(used)` as in the source. -/
def normalize_chains (lines : List (List Char)) (used : Finset Char) :
    Option (List (List Char) × Finset Char × List Char) :=
  match ncGo lines { chainMap := [], used := used, nextIdx := used.card, assigned := [] } with
  | none => none
  | some (out, st) => some (out, st.used, st.assigned)

/-- main.py `/normalize` style sequencing: normalize a list of structures
against one shared label pool, threading the returned pool into each next
call, and collect all assigned labels in order. -/
def normalizeSeq : List (List (List Char)) → Finset Char → Option (List Char)
  | [], _ => some []
  | f :: fs, used =>
    match normalize_chains f used with
    | none => none
    | some (_, used2, labels) =>
      match normalizeSeq fs used2 with
      | none => none
      | some rest => some (labels ++ rest)

/-! ## Lemmas about `normalize_chains` -/

theorem findFree_not_mem (used : Finset Char) :
    ∀ fuel idx c i, findFree used fuel idx = some (c, i) → c ∉ used := by
  intro fuel
  induction fuel with
  | zero => intro idx c i h; exact absurd h (by simp [findFree])
  | succ fuel ih =>
    intro idx c i h
    rw [findFree] at h
    split at h
    · exact absurd h (by simp)
    · split at h
      · exact ih _ _ _ h
      · next hm =>
        injection h with h2
        cases h2
        exact hm

/-- Shape of a successful `ncLine` step: a non-atom line passes through with
untouched state; an atom line is rewritten only at column 21 and the state
either is unchanged (chain already mapped) or records one fresh label. -/
theorem ncLine_out {l : List Char} {st : NcState} {l2 : List Char} {st2 : NcState}
    (h : ncLine l st = some (l2, st2)) :
    (isAtomLine l = false ∧ l2 = l ∧ st2 = st) ∨
    (isAtomLine l = true ∧ (∃ c, l2 = l.take 21 ++ c :: l.drop 22) ∧
      ((st2.assigned = st.assigned ∧ st2.used = st.used) ∨
       (∃ nc, nc ∉ st.used ∧ st2.assigned = st.assigned ++ [nc] ∧
         st2.used = insert nc st.used))) := by
  have aux : ∀ old, ncAssign l old st = some (l2, st2) →
      (∃ c, l2 = l.take 21 ++ c :: l.drop 22) ∧
      ((st2.assigned = st.assigned ∧ st2.used = st.used) ∨
       (∃ nc, nc ∉ st.used ∧ st2.assigned = st.assigned ++ [nc] ∧
         st2.used = insert nc st.used)) := by
    intro old ha
    unfold ncAssign at ha
    split at ha
    · next nc hm =>
      injection ha with h2
      rw [Prod.mk.injEq] at h2
      refine ⟨⟨nc, h2.1.symm⟩, Or.inl ?_⟩
      rw [← h2.2]
      exact ⟨rfl, rfl⟩
    · split at ha
      · exact absurd ha (by simp)
      · next nc idx hf =>
        injection ha with h2
        rw [Prod.mk.injEq] at h2
        refine ⟨⟨nc, h2.1.symm⟩,
          Or.inr ⟨nc, findFree_not_mem st.used 27 st.nextIdx nc idx hf, ?_, ?_⟩⟩
        · rw [← h2.2]
        · rw [← h2.2]
  unfold ncLine at h
  by_cases ha : isAtomLine l = true
  · rw [if_pos ha] at h
    split at h
    · exact absurd h (by simp)
    · next c21 hg => exact Or.inr ⟨ha, aux _ h⟩
  · rw [if_neg ha] at h
    injection h with h2
    rw [Prod.mk.injEq] at h2
    exact Or.inl ⟨Bool.not_eq_true _ ▸ ha, h2.1.symm, h2.2.symm⟩

theorem ncGo_assigned_spec :
    ∀ (ls : List (List Char)) (st : NcState) (out : List (List Char)) (stf : NcState),
    ncGo ls st = some (out, stf) →
    ∃ newAs : List Char, stf.assigned = st.assigned ++ newAs ∧ newAs.Nodup ∧
      (∀ c ∈ newAs, c ∉ st.used) ∧ stf.used = st.used ∪ newAs.toFinset := by
  intro ls
  induction ls with
  | nil =>
    intro st out stf h
    rw [ncGo] at h
    injection h with h2
    rw [Prod.mk.injEq] at h2
    refine ⟨[], ?_, by simp, by simp, ?_⟩
    · rw [← h2.2]; simp
    · rw [← h2.2]; simp
  | cons l ls ih =>
    intro st out stf h
    rw [ncGo] at h
    split at h
    · exact absurd h (by simp)
    · next l2 st2 h1 =>
      split at h
      · exact absurd h (by simp)
      · next rest stf2 h2 =>
        injection h with h3
        rw [Prod.mk.injEq] at h3
        obtain ⟨newAs2, ha2, hnd2, hfresh2, hu2⟩ := ih st2 rest stf2 h2
        have hstf : stf2 = stf := h3.2
        subst hstf
        rcases ncLine_out h1 with ⟨_, _, hst⟩ | ⟨_, _, hcase⟩
        · subst hst
          exact ⟨newAs2, ha2, hnd2, hfresh2, hu2⟩
        · rcases hcase with ⟨hae, hue⟩ | ⟨nc, hnc, hae, hue⟩
          · refine ⟨newAs2, ?_, hnd2, ?_, ?_⟩
            · rw [ha2, hae]
            · rw [← hue]; exact hfresh2
            · rw [hu2, hue]
          · refine ⟨nc :: newAs2, ?_, ?_, ?_, ?_⟩
            · rw [ha2, hae]; simp
            · refine List.Nodup.cons ?_ hnd2
              intro hmem
              exact absurd (by rw [hue]; exact Finset.mem_insert_self nc st.used)
                (hfresh2 nc hmem)
            · intro c hc
              rcases List.mem_cons.mp hc with rfl | hc
              · exact hnc
              · intro hcu
                exact hfresh2 c hc (by rw [hue]; exact Finset.mem_insert_of_mem hcu)
            · rw [hu2, hue]
              simp only [List.toFinset_cons]
              rw [Finset.insert_union, Finset.union_insert]

theorem normalize_chains_spec {lines : List (List Char)} {used : Finset Char}
    {out : List (List Char)} {used2 : Finset Char} {labels : List Char}
    (h : normalize_chains lines used = some (out, used2, labels)) :
    labels.Nodup ∧ (∀ c ∈ labels, c ∉ used) ∧ used2 = used ∪ labels.toFinset := by
  unfold normalize_chains at h
  split at h
  · exact absurd h (by simp)
  · next out2 st h1 =>
    injection h with h2
    rw [Prod.mk.injEq] at h2
    obtain ⟨newAs, ha, hnd, hfresh, hu⟩ := ncGo_assigned_spec _ _ out2 st h1
    simp only [List.nil_append] at ha
    have hl : labels = newAs := by
      have h3 := h2.2
      rw [Prod.mk.injEq] at h3
      rw [← h3.2, ha]
    have hu2 : used2 = st.used := by
      have h3 := h2.2
      rw [Prod.mk.injEq] at h3
      rw [← h3.1]
    subst hl
    exact ⟨hnd, hfresh, by rw [hu2, hu]⟩

/-! ## Claims C7 and C10 -/

/-- C7: normalizing any sequence of structures against one shared used-labels
pool, threading the returned pool from each call into the next, assigns a
set of chain labels with no duplicates across the whole sequence, and none
of them was in the initial pool. -/
theorem claim_C7 :
    ∀ (fs : List (List (List Char))) (used0 : Finset Char) (labels : List Char),
    normalizeSeq fs used0 = some labels →
    labels.Nodup ∧ ∀ c ∈ labels, c ∉ used0 := by
  intro fs
  induction fs with
  | nil =>
    intro used0 labels h
    rw [normalizeSeq] at h
    injection h with h2
    rw [← h2]
    exact ⟨List.nodup_nil, by simp⟩
  | cons f fs ih =>
    intro used0 labels h
    rw [normalizeSeq] at h
    split at h
    · exact absurd h (by simp)
    · next out used2 as h1 =>
      split at h
      · exact absurd h (by simp)
      · next rest h2 =>
        injection h with h3
        obtain ⟨hnd1, hfresh1, hu⟩ := normalize_chains_spec h1
        obtain ⟨hnd2, hfresh2⟩ := ih used2 rest h2
        rw [← h3]
        constructor
        · rw [List.nodup_append]
          refine ⟨hnd1, hnd2, fun c hc hc2 => ?_⟩
          exact hfresh2 c hc2 (by rw [hu]; exact Finset.mem_union_right _ (List.mem_toFinset.mpr hc))
        · intro c hc
          rcases List.mem_append.mp hc with hc | hc
          · exact hfresh1 c hc
          · intro hc0
            exact hfresh2 c hc (by rw [hu]; exact Finset.mem_union_left _ hc0)

/-- A 27-character atom record whose chain column (index 21) holds `A`. -/
def atomLineA : List Char := "ATOM                 A   1 ".data

/-- A non-atom record. -/
def remarkLine : List Char := "REMARK test".data

/-- Concrete instantiation of `claim_C7`: two single-line structures both
labelled `A`, normalized against one fresh pool, are assigned the distinct
labels `A` and `B`. -/
theorem claim_C7_witness :
    (['A', 'B'] : List Char).Nodup ∧ ∀ c ∈ (['A', 'B'] : List Char), c ∉ (∅ : Finset Char) :=
  claim_C7 [[atomLineA], [atomLineA]] ∅ ['A', 'B'] (by decide)

/-- Claim C10's per-line relation: a non-ATOM/HETATM output line is identical
to its input line, and an ATOM/HETATM output line differs from its input at
most in the single chain-label character at column index 21. -/
def ncLineRel (l o : List Char) : Prop :=
  if isAtomLine l then ∃ c, o = l.take 21 ++ c :: l.drop 22 else o = l

/-- C10: a successful `normalize_chains` call writes an output with the same
number of lines as the input, in which every non-ATOM/HETATM line is
identical to the corresponding input line and every ATOM/HETATM line
differs from its input line at most at column index 21. -/
theorem claim_C10 {lines : List (List Char)} {used : Finset Char}
    {out : List (List Char)} {used2 : Finset Char} {labels : List Char}
    (h : normalize_chains lines used = some (out, used2, labels)) :
    out.length = lines.length ∧ List.Forall₂ ncLineRel lines out := by
  have hgo : ∀ (ls : List (List Char)) (st : NcState) (o : List (List Char)) (stf : NcState),
      ncGo ls st = some (o, stf) → List.Forall₂ ncLineRel ls o := by
    intro ls
    induction ls with
    | nil =>
      intro st o stf hg
      rw [ncGo] at hg
      injection hg with h2
      rw [Prod.mk.injEq] at h2
      rw [← h2.1]
      exact List.Forall₂.nil
    | cons l ls ih =>
      intro st o stf hg
      rw [ncGo] at hg
      split at hg
      · exact absurd hg (by simp)
      · next l2 st2 h1 =>
        split at hg
        · exact absurd hg (by simp)
        · next rest stf2 h2 =>
          injection hg with h3
          rw [Prod.mk.injEq] at h3
          rw [← h3.1]
          refine List.Forall₂.cons ?_ (ih st2 rest stf2 h2)
          rcases ncLine_out h1 with ⟨hna, hl2, _⟩ | ⟨hat, hc, _⟩
          · unfold ncLineRel
            rw [hna]
            simpa using hl2
          · unfold ncLineRel
            rw [hat]
            simpa using hc
  unfold normalize_chains at h
  split at h
  · exact absurd h (by simp)
  · next out2 st h1 =>
    injection h with h2
    rw [Prod.mk.injEq] at h2
    have hf : List.Forall₂ ncLineRel lines out2 := hgo _ _ _ _ h1
    rw [← h2.1] at *
    exact ⟨hf.length_eq.symm, hf⟩

/-- Concrete instantiation of `claim_C10` on a two-line file (one atom
record, one remark): the output has two lines, the atom line is rewritten
only at column 21, the remark is untouched. -/
theorem claim_C10_witness :
    ([atomLineA, remarkLine] : List (List Char)).length = 2 ∧
    List.Forall₂ ncLineRel [atomLineA, remarkLine] [atomLineA, remarkLine] := by
  have h := @claim_C10 [atomLineA, remarkLine] ∅ [atomLineA, remarkLine] {'A'} ['A']
    (by decide)
  exact ⟨by decide, h.2⟩

/-! ## Residue sanitizer (pipeline.py `sanitize_pdb`, lines 487-515) -/

/-- The (chain, residue-number, insertion-code) triple tracked by
`sanitize_pdb`: `line[21]`, `line[22:26].strip()`, `line[26].strip()`. -/
def atomKey? (l : List Char) : Option (Char × List Char × List Char) :=
  match l.get? 21, l.get? 26 with
  | some chain, some c26 => some (chain, pyStrip ((l.drop 22).take 4), pyStrip [c26])
  | _, _ => none

/-- The line loop of `sanitize_pdb`, carrying `last_key`, `new_resseq`, and
the current formatted `new_num`.  On each atom record whose key differs from
the previous one the next sequential number is formatted and assigned; the
record is rewritten as `line[:22] + new_num + " " + line[27:]`.  `none`
models `IndexError` on an atom record shorter than 27 characters. -/
def sanGo : List (List Char) → Option (Char × List Char × List Char) → Nat → List Char →
    Option (List (List Char))
  | [], _, _, _ => some []
  | l :: ls, lastKey, nextN, curNum =>
    if isAtomLine l then
      match atomKey? l with
      | none => none
      | some key =>
        if some key ≠ lastKey then
          match sanGo ls (some key) (nextN + 1) (fmtResseq nextN) with
          | none => none
          | some rest => some ((l.take 22 ++ fmtResseq nextN ++ ' ' :: l.drop 27) :: rest)
        else
          match sanGo ls lastKey nextN curNum with
          | none => none
          | some rest => some ((l.take 22 ++ curNum ++ ' ' :: l.drop 27) :: rest)
    else
      match sanGo ls lastKey nextN curNum with
      | none => none
      | some rest => some (l :: rest)

/-- pipeline.py `sanitize_pdb` (lines 487-515): `last_key = None`,
`new_resseq = 1`, `new_num = "   1"`. -/
def sanitize_pdb (lines : List (List Char)) : Option (List (List Char)) :=
  sanGo lines none 1 "   1".data

/-- The keys of the atom records of a file, in file order. -/
def atomKeys (lines : List (List Char)) : List (Char × List Char × List Char) :=
  lines.filterMap (fun l => if isAtomLine l then atomKey? l else none)

/-- Number of runs of a key list, continuing a possibly ongoing run whose
key is `last`: a new run starts exactly when the key changes. -/
def runsFrom : Option (Char × List Char × List Char) →
    List (Char × List Char × List Char) → Nat
  | _, [] => 0
  | last, k :: ks => if some k ≠ last then 1 + runsFrom (some k) ks else runsFrom last ks

/-- The number K of distinct (chain, residue-number, insertion-code) runs of
a file, named by claim C8. -/
def runCount (lines : List (List Char)) : Nat :=
  runsFrom none (atomKeys lines)

/-- The residue numbers written in the atom records of a file, in file
order, read back from columns 22-25. -/
def residueNums (lines : List (List Char)) : List Nat :=
  lines.filterMap (fun l =>
    if isAtomLine l then some (digitsToNat (pyStrip ((l.drop 22).take 4))) else none)

/-- Collapse consecutive duplicates, also against a preceding value `v`. -/
def dedupFrom : Option Nat → List Nat → List Nat
  | _, [] => []
  | v, a :: as => if some a = v then dedupFrom v as else a :: dedupFrom (some a) as

theorem length_ge_of_get?_eq_some {l : List Char} {n : Nat} {c : Char}
    (h : l.get? n = some c) : n + 1 ≤ l.length := by
  obtain ⟨h1, _⟩ := List.get?_eq_some.mp h
  omega

theorem isPrefixOf_take_append (p l r : List Char) (hp : p.length ≤ 22)
    (h : 22 ≤ l.length) : p.isPrefixOf (l.take 22 ++ r) = p.isPrefixOf l := by
  rw [Bool.eq_iff_iff, List.isPrefixOf_iff_prefix, List.isPrefixOf_iff_prefix,
    List.prefix_iff_eq_take, List.prefix_iff_eq_take, List.take_append_eq_append_take,
    List.length_take]
  have hmin : min 22 l.length = 22 := by omega
  rw [hmin, Nat.sub_eq_zero_of_le hp, List.take_zero, List.append_nil, List.take_take]
  have hmin2 : min p.length 22 = p.length := by omega
  rw [hmin2]

theorem isAtomLine_take_append (l r : List Char) (h : 22 ≤ l.length) :
    isAtomLine (l.take 22 ++ r) = isAtomLine l := by
  unfold isAtomLine pyStartsWith
  rw [isPrefixOf_take_append _ _ _ (by decide) h, isPrefixOf_take_append _ _ _ (by decide) h]

theorem atomKey?_length {l : List Char} {key : Char × List Char × List Char}
    (h : atomKey? l = some key) : 27 ≤ l.length := by
  unfold atomKey? at h
  split at h
  · next h21 h26 => exact length_ge_of_get?_eq_some h26
  · exact absurd h (by simp)

/-- Invariant of the `sanitize_pdb` loop: starting from a state that may
continue a run already numbered `nextN - 1`, the numbers read back from the
output are (after collapsing runs) exactly `nextN, nextN+1, …`, one per key
run, and every rewritten atom record has a blank insertion-code column. -/
theorem sanGo_spec :
    ∀ (ls : List (List Char)) (lastKey : Option (Char × List Char × List Char))
      (nextN : Nat) (curNum : List Char) (out : List (List Char)),
    sanGo ls lastKey nextN curNum = some out →
    1 ≤ nextN →
    nextN - 1 + runsFrom lastKey (atomKeys ls) ≤ 9999 →
    (lastKey.isSome = true → curNum = fmtResseq (nextN - 1)) →
    dedupFrom (if lastKey.isSome then some (nextN - 1) else none) (residueNums out) =
      List.range' nextN (runsFrom lastKey (atomKeys ls)) ∧
    (∀ o ∈ out, isAtomLine o = true → o.get? 26 = some ' ') := by
  intro ls
  induction ls with
  | nil =>
    intro lastKey nextN curNum out h _ _ _
    rw [sanGo] at h
    injection h with h2
    rw [← h2]
    refine ⟨?_, by simp⟩
    simp [residueNums, dedupFrom, atomKeys, runsFrom]
  | cons l ls ih =>
    intro lastKey nextN curNum out h hN hbound hcur
    rw [sanGo] at h
    by_cases hat : isAtomLine l = true
    · rw [if_pos hat] at h
      split at h
      · exact absurd h (by simp)
      · next key hk =>
        have h27 : 27 ≤ l.length := atomKey?_length hk
        have h22 : 22 ≤ l.length := by omega
        have htk : (l.take 22).length = 22 := by rw [List.length_take]; omega
        have hak : atomKeys (l :: ls) = key :: atomKeys ls := by
          simp [atomKeys, List.filterMap_cons, hat, hk]
        by_cases hne : some key ≠ lastKey
        · rw [if_pos hne] at h
          have hruns : runsFrom lastKey (atomKeys (l :: ls)) =
              1 + runsFrom (some key) (atomKeys ls) := by
            rw [hak, runsFrom, if_pos hne]
          rw [hruns] at hbound
          have hNle : nextN ≤ 9999 := by omega
          have hfl : (fmtResseq nextN).length = 4 := fmtResseq_length _ hNle
          split at h
          · exact absurd h (by simp)
          · next rest hrest =>
            injection h with h2
            rw [← h2]
            have hhead : isAtomLine (l.take 22 ++ (fmtResseq nextN ++ ' ' :: l.drop 27)) =
                true := by
              rw [isAtomLine_take_append _ _ h22]; exact hat
            have hv : digitsToNat (pyStrip
                (((l.take 22 ++ (fmtResseq nextN ++ ' ' :: l.drop 27)).drop 22).take 4)) =
                nextN := by
              rw [List.drop_left' htk, List.take_left' hfl,
                pyStrip_fmtResseq, digitsToNat_natDigits]
            have hl26 : (l.take 22 ++ fmtResseq nextN).length = 26 := by
              rw [List.length_append, htk, hfl]
            have hic : (l.take 22 ++ fmtResseq nextN ++ ' ' :: l.drop 27).get? 26 =
                some ' ' := by
              rw [List.get?_eq_getElem?, List.getElem?_append_right hl26.le, hl26]
              simp
            obtain ⟨ihd, ihic⟩ := ih (some key) (nextN + 1) (fmtResseq nextN) rest hrest
              (by omega) (by simpa using (by omega : nextN + runsFrom (some key) (atomKeys ls) ≤ 9999))
              (by intro _; rw [Nat.add_sub_cancel])
            rw [Nat.add_sub_cancel] at ihd
            simp only [Option.isSome_some, if_true] at ihd
            constructor
            · rw [hruns]
              have hstep : residueNums
                  ((l.take 22 ++ fmtResseq nextN ++ ' ' :: l.drop 27) :: rest) =
                  nextN :: residueNums rest := by
                simp [residueNums, List.filterMap_cons, hhead, hv]
              rw [hstep, dedupFrom]
              have hcond : ¬ (some nextN = if lastKey.isSome = true then
                  some (nextN - 1) else none) := by
                cases lastKey <;> simp <;> omega
              rw [if_neg hcond, ihd]
              rw [Nat.add_comm 1 _, List.range'_succ]
            · intro o ho
              rcases List.mem_cons.mp ho with rfl | ho
              · intro _; exact hic
              · exact ihic o ho
        · rw [if_neg hne] at h
          have heq : some key = lastKey := not_ne_iff.mp hne
          have hsome : lastKey.isSome = true := by rw [← heq]; rfl
          have hcn : curNum = fmtResseq (nextN - 1) := hcur hsome
          have hruns : runsFrom lastKey (atomKeys (l :: ls)) =
              runsFrom lastKey (atomKeys ls) := by
            rw [hak, runsFrom, if_neg hne]
          rw [hruns] at hbound
          have hN1le : nextN - 1 ≤ 9999 := by omega
          have hfl : curNum.length = 4 := by rw [hcn]; exact fmtResseq_length _ hN1le
          split at h
          · exact absurd h (by simp)
          · next rest hrest =>
            injection h with h2
            rw [← h2]
            have hhead : isAtomLine (l.take 22 ++ (curNum ++ ' ' :: l.drop 27)) = true := by
              rw [isAtomLine_take_append _ _ h22]; exact hat
            have hv : digitsToNat (pyStrip
                (((l.take 22 ++ (curNum ++ ' ' :: l.drop 27)).drop 22).take 4)) =
                nextN - 1 := by
              rw [List.drop_left' htk, List.take_left' hfl, hcn,
                pyStrip_fmtResseq, digitsToNat_natDigits]
            have hl26 : (l.take 22 ++ curNum).length = 26 := by
              rw [List.length_append, htk, hfl]
            have hic : (l.take 22 ++ curNum ++ ' ' :: l.drop 27).get? 26 = some ' ' := by
              rw [List.get?_eq_getElem?, List.getElem?_append_right hl26.le, hl26]
              simp
            obtain ⟨ihd, ihic⟩ := ih lastKey nextN curNum rest hrest hN
              (by omega) hcur
            constructor
            · rw [hruns]
              have hstep : residueNums
                  ((l.take 22 ++ curNum ++ ' ' :: l.drop 27) :: rest) =
                  (nextN - 1) :: residueNums rest := by
                simp [residueNums, List.filterMap_cons, hhead, hv]
              have hvv : (if lastKey.isSome = true then some (nextN - 1) else none) =
                  some (nextN - 1) := by simp [hsome]
              rw [hvv] at ihd
              rw [hstep, hvv, dedupFrom, if_pos rfl]
              exact ihd
            · intro o ho
              rcases List.mem_cons.mp ho with rfl | ho
              · intro _; exact hic
              · exact ihic o ho
    · have hfalse : isAtomLine l = false := by revert hat; cases isAtomLine l <;> simp
      rw [if_neg hat] at h
      split at h
      · exact absurd h (by simp)
      · next rest hrest =>
        injection h with h2
        rw [← h2]
        have hak : atomKeys (l :: ls) = atomKeys ls := by
          simp [atomKeys, List.filterMap_cons, hfalse]
        rw [hak] at hbound
        obtain ⟨ihd, ihic⟩ := ih lastKey nextN curNum rest hrest hN hbound hcur
        constructor
        · rw [hak]
          have hstep : residueNums (l :: rest) = residueNums rest := by
            simp [residueNums, List.filterMap_cons, hfalse]
          rw [hstep]
          exact ihd
        · intro o ho
          rcases List.mem_cons.mp ho with rfl | ho
          · intro hoat; exact absurd hoat (by rw [hfalse]; simp)
          · exact ihic o ho

/-! ## Claim C8 -/

/-- C8: for every input whose atom records contain K distinct runs of the
(chain, residue-number, insertion-code) triple in file order (K at most the
9999 representable in the fixed-width residue column), a successful
`sanitize_pdb` writes an output whose residue numbers, read back from
columns 22-25 and collapsed by runs, are exactly `1..K` in file order, and
whose insertion-code column (index 26) is blank on every atom record. -/
theorem claim_C8 {lines out : List (List Char)}
    (h : sanitize_pdb lines = some out) (hK : runCount lines ≤ 9999) :
    dedupFrom none (residueNums out) = List.range' 1 (runCount lines) ∧
    ∀ o ∈ out, isAtomLine o = true → o.get? 26 = some ' ' := by
  have hs := sanGo_spec lines none 1 "   1".data out h (by omega)
    (by simpa [runCount] using hK) (by simp)
  simpa [runCount] using hs

/-- A 27-character atom record with chain `A` and residue number 2. -/
def atomLineA2 : List Char := "ATOM                 A   2 ".data

/-- Concrete instantiation of `claim_C8`: a file with two runs (two records
sharing residue 1, then one with residue 2) sanitizes to numbers `[1, 2]`. -/
theorem claim_C8_witness :
    dedupFrom none (residueNums [atomLineA, atomLineA, atomLineA2]) =
      List.range' 1 (runCount [atomLineA, atomLineA, atomLineA2]) ∧
    ∀ o ∈ [atomLineA, atomLineA, atomLineA2], isAtomLine o = true → o.get? 26 = some ' ' :=
  @claim_C8 [atomLineA, atomLineA, atomLineA2] [atomLineA, atomLineA, atomLineA2]
    (by decide) (by decide)

/-! ## Docking-job cancel endpoint (main.py `api_dock_cancel`, lines 358-366) -/

/-- Status strings returned by `/dock-cancel`. -/
inductive CancelStatus where
  | cancelled
  | notFound
  deriving Repr, DecidableEq

/-- The process registry `active_docking_jobs : dict[str, subprocess.Popen]`,
modelled as a partial map from project names to process handles. -/
def Registry : Type := List Char → Option Nat

/-- Removing a key (`del active_docking_jobs[project]`). -/
def Registry.erase (reg : Registry) (p : List Char) : Registry :=
  fun q => if q = p then none else reg q

/-- main.py `api_dock_cancel` (lines 358-366): if a process is registered
for the project, terminate it (the returned list holds the handles that
were sent a termination signal), remove the registry entry and report
`cancelled`; otherwise report `not_found`.  The function is total: no path
raises. -/
def api_dock_cancel (reg : Registry) (project : List Char) :
    CancelStatus × Registry × List Nat :=
  match reg project with
  | some h => (.cancelled, reg.erase project, [h])
  | none => (.notFound, reg, [])

/-- C9: cancel returns `cancelled` and removes the registry entry when a
process is registered, returns `not_found` when none is registered (leaving
the registry untouched), never raises (it is a total function of the
registry), and a second consecutive call always returns `not_found`. -/
theorem claim_C9 (reg : Registry) (project : List Char) :
    (∀ h, reg project = some h →
      (api_dock_cancel reg project).1 = .cancelled ∧
      (api_dock_cancel reg project).2.1 project = none ∧
      (api_dock_cancel reg project).2.2 = [h]) ∧
    (reg project = none →
      (api_dock_cancel reg project).1 = .notFound ∧
      (api_dock_cancel reg project).2.1 = reg ∧
      (api_dock_cancel reg project).2.2 = []) ∧
    (api_dock_cancel (api_dock_cancel reg project).2.1 project).1 = .notFound := by
  refine ⟨?_, ?_, ?_⟩
  · intro h hh
    unfold api_dock_cancel
    rw [hh]
    exact ⟨rfl, by simp [Registry.erase], rfl⟩
  · intro hh
    unfold api_dock_cancel
    rw [hh]
    exact ⟨rfl, rfl, rfl⟩
  · unfold api_dock_cancel
    cases hh : reg project with
    | none => simp [hh]
    | some h => simp [hh, Registry.erase]

/-- A one-entry registry used to instantiate `claim_C9`. -/
def regOne : Registry := fun q => if q = "p1".data then some 7 else none

/-- Concrete instantiation of `claim_C9`: cancelling the registered project
`p1` reports `cancelled` and terminates handle 7; cancelling it again
reports `not_found`; cancelling the unregistered `p2` reports `not_found`. -/
theorem claim_C9_witness :
    (api_dock_cancel regOne "p1".data).1 = .cancelled ∧
    (api_dock_cancel (api_dock_cancel regOne "p1".data).2.1 "p1".data).1 = .notFound ∧
    (api_dock_cancel regOne "p2".data).1 = .notFound :=
  ⟨((claim_C9 regOne "p1".data).1 7 rfl).1,
   (claim_C9 regOne "p1".data).2.2,
   ((claim_C9 regOne "p2".data).2.1 (by decide)).1⟩

/-! ## Progress tracker (main.py `generate_progress`, lines 167-311)

The generator is driven by the lines of the external process's combined
output stream.  The score-table re-reads of `check_fasc_file` touch
external, concurrently written filesystem state; they are modelled by an
oracle `fascAt : Nat → Nat` giving the count that the helper returns when
invoked at a given `line_count`.  Only the streaming portion of the
generator is modelled (the start/progress/score events); the terminal
complete/error events emitted after process exit delegate to the score
parser and are not stream-driven. -/

/-- The progress events of the dock stream (`type` field of the SSE JSON). -/
inductive Ev where
  | start (total : Nat)
  | progress (current total percent : Nat)
  | score (score : ℚ) (desc : List Char)
  deriving Repr, DecidableEq

/-- State of the streaming loop. -/
structure GpSt where
  lineCount : Nat
  structuresDone : Nat
  scores : List (ℚ × List Char)
  lastSent : Int
  deriving Repr, DecidableEq

/-- main.py `should_send_progress` (lines 242-248): emit iff the count
differs from the last-emitted value, updating it on emission (the
`current_count >= 0` conjunct is always true for a natural count). -/
def shouldSend (cur : Nat) (last : Int) : Bool × Int :=
  if (cur : Int) ≠ last then (true, (cur : Int)) else (false, last)

/-! The percent payload `min(100, int((structures_done / nstruct) * 100))` is
computed in IEEE-754 double precision: Python's `int / int` true division
rounds the exact ratio once to the nearest double (ties to even), the
product with `100` rounds once more, and `int()` truncates toward zero.
`roundDouble` models that rounding exactly over ℚ: the value is scaled by a
power of two into the 53-bit significand window `[2^52, 2^53)`, rounded to
the nearest integer (ties to even), and scaled back.  Exponent overflow to
infinity and underflow to subnormals (where CPython raises or flushes) lie
outside the generator's reachable magnitudes and outside the fuel-bounded
scaling.  Rational arithmetic is written with `mkRat`/`num`/`den` (the
Mathlib field operations on ℚ are `@[irreducible]`, which would block
kernel evaluation); `ratOfNatDiv_eq` and `times100_eq` below restate the
two source-level operations with ordinary `/` and `*`. -/

def twoPow52 : ℚ := 4503599627370496

def twoPow53 : ℚ := 9007199254740992

/-- Scale `q > 0` by a power of two into `[2^52, 2^53)`, returning the
scaled value together with the exponent of the applied scale. -/
def normWindow : Nat → ℚ → ℤ → ℚ × ℤ
  | 0, q, s => (q, s)
  | fuel + 1, q, s =>
    if q < twoPow52 then normWindow fuel (mkRat (q.num * 2) q.den) (s + 1)
    else if twoPow53 ≤ q then normWindow fuel (mkRat q.num (q.den * 2)) (s - 1)
    else (q, s)

/-- Round a positive rational to the nearest 53-bit binary floating-point
value, ties to even. -/
def roundPos (q : ℚ) : ℚ :=
  let ws := normWindow 6000 q 0
  let m0 : ℤ := ws.1.num / (ws.1.den : ℤ)
  let fr : ℚ := mkRat (ws.1.num - m0 * (ws.1.den : ℤ)) ws.1.den
  let m : ℤ :=
    if fr < mkRat 1 2 then m0
    else if mkRat 1 2 < fr then m0 + 1
    else if m0 % 2 = 0 then m0 else m0 + 1
  if 0 ≤ ws.2 then mkRat m (2 ^ ws.2.toNat)
  else mkRat (m * (2 : ℤ) ^ (-ws.2).toNat) 1

/-- IEEE-754 double-precision rounding of an exact rational (round to
nearest, ties to even; sign-symmetric). -/
def roundDouble (q : ℚ) : ℚ :=
  if q = 0 then 0
  else if q < 0 then -roundPos (-q)
  else roundPos q

/-- Python `int / int` true division: the exact ratio as a rational (to be
rounded by `roundDouble`; `mkRat` sends the unreachable zero denominator to
0, where CPython raises ZeroDivisionError). -/
def ratOfNatDiv (a b : Nat) : ℚ := mkRat a b

/-- Multiplication of an exact rational by the integer 100 (the `* 100` of
the source; `100` converts to double exactly). -/
def times100 (q : ℚ) : ℚ := mkRat (q.num * 100) q.den

/-- Python `int()` on a float value: truncation toward zero. -/
def pyIntTrunc (q : ℚ) : ℤ := q.num / (q.den : ℤ)

/-- `min(100, int((structures_done / nstruct) * 100))` (main.py): the exact
ratio rounded to double, multiplied by 100 and rounded again, truncated
toward zero, capped at 100. -/
def pct (sd n : Nat) : Nat :=
  min 100 (pyIntTrunc (roundDouble (times100 (roundDouble (ratOfNatDiv sd n))))).toNat

theorem ratOfNatDiv_eq (a b : Nat) : ratOfNatDiv a b = (a : ℚ) / (b : ℚ) := by
  rw [ratOfNatDiv, Rat.mkRat_eq_div]
  push_cast
  rfl

theorem times100_eq (q : ℚ) : times100 q = q * 100 := by
  rw [times100, Rat.mkRat_eq_div]
  conv_rhs => rw [← Rat.num_div_den q]
  push_cast
  ring

theorem roundDouble_zero : roundDouble 0 = 0 := by
  unfold roundDouble
  simp

/-- The double-precision model reproduces the machine artifacts of the
source: `int((29/100)*100)` is 28 (one below the exact floor) and
`int((2/3)*100)` is 66 (truncation, not rounding), as in CPython. -/
theorem pct_double_artifact : pct 29 100 = 28 ∧ pct 58 100 = 57 ∧ pct 2 3 = 66 := by
  decide

def jdPat1 : List Char := "protocols.jd2.JobDistributor".data

def jdPat2 : List Char := "JobDistributor".data

/-- Leftmost search for `key` followed by one-or-more whitespace and a
digit run (the regexes `starting\s+(\d+)` and `job\s+(\d+)` on the
lowered line), returning the digit run's value. -/
def searchKeyThenNum (key : List Char) : List Char → Option Nat
  | [] => none
  | c :: rest =>
    if key.isPrefixOf (c :: rest) then
      let r := (c :: rest).drop key.length
      let ws := r.takeWhile isPySpace
      let r2 := r.dropWhile isPySpace
      let ds := r2.takeWhile isPyDigit
      if ws ≠ [] ∧ ds ≠ [] then some (digitsToNat ds)
      else searchKeyThenNum key rest
    else searchKeyThenNum key rest

/-- Leftmost search for a digit run followed by one-or-more whitespace and
`key` (the regex `(\d+)\s+of` on the lowered line), returning the digit
run's value. -/
def searchNumThenKey (key : List Char) : List Char → Option Nat
  | [] => none
  | c :: rest =>
    if isPyDigit c then
      let ds := (c :: rest).takeWhile isPyDigit
      let r := (c :: rest).dropWhile isPyDigit
      let ws := r.takeWhile isPySpace
      let r2 := r.dropWhile isPySpace
      if ws ≠ [] ∧ key.isPrefixOf r2 then some (digitsToNat ds)
      else searchNumThenKey key rest
    else searchNumThenKey key rest

def pyLower (l : List Char) : List Char := l.map Char.toLower

/-- main.py lines 276-284: the three case-insensitive patterns tried in
order on a job-distributor line. -/
def findJobNum (l : List Char) : Option Nat :=
  let low := pyLower l
  match searchKeyThenNum "starting".data low with
  | some n => some n
  | none =>
    match searchNumThenKey "of".data low with
    | some n => some n
    | none => searchKeyThenNum "job".data low

/-- main.py lines 292-298: a recognized score-data line — `SCORE:` marker,
no `total_score`, no `description`, at least two tokens, second token a
parsable float — together with its payload: the parsed score and the
descriptor (`parts[-1]` when there are more than two tokens, else
`unknown`). -/
def recScore? (l : List Char) : Option (ℚ × List Char) :=
  if pyStartsWith scoreMarker l && !containsSub totalScoreCol l &&
      !containsSub "description".data l then
    match pySplit l with
    | _ :: p1 :: rest =>
      match pyFloat? p1 with
      | some s =>
        some (s, match rest.getLast? with
          | some d => d
          | none => "unknown".data)
      | none => none
    | _ => none
  else none

/-- Signal (a), main.py lines 264-270: every third line re-read the score
table; the combined count only ever increases from this signal. -/
def sigA (nstruct : Nat) (fascAt : Nat → Nat) (lc sd : Nat) (last : Int) :
    List Ev × Nat × Int :=
  if lc % 3 = 0 then
    let fc := fascAt lc
    if sd < fc then
      match shouldSend fc last with
      | (true, last2) => ([Ev.progress fc nstruct (pct fc nstruct)], fc, last2)
      | (false, last2) => ([], fc, last2)
    else ([], sd, last)
  else ([], sd, last)

/-- Signal (b), main.py lines 274-287: job-distributor lines, combined by
`max`. -/
def sigB (nstruct : Nat) (l : List Char) (sd : Nat) (last : Int) :
    List Ev × Nat × Int :=
  if containsSub jdPat1 l || containsSub jdPat2 l then
    match findJobNum l with
    | some cur =>
      let sd2 := max sd cur
      match shouldSend sd2 last with
      | (true, last2) => ([Ev.progress sd2 nstruct (pct sd2 nstruct)], sd2, last2)
      | (false, last2) => ([], sd2, last2)
    | none => ([], sd, last)
  else ([], sd, last)

/-- Signal (c), main.py lines 292-307: a recognized score line appends to
`scores`, overwrites the combined count with `len(scores)` (not a `max`),
possibly emits a progress event, and always emits a score event. -/
def sigC (nstruct : Nat) (l : List Char) (scores : List (ℚ × List Char))
    (sd : Nat) (last : Int) : List Ev × Nat × List (ℚ × List Char) × Int :=
  match recScore? l with
  | some p =>
    let scores2 := scores ++ [p]
    let sd3 := scores2.length
    match shouldSend sd3 last with
    | (true, last2) =>
      ([Ev.progress sd3 nstruct (pct sd3 nstruct), Ev.score p.1 p.2], sd3, scores2, last2)
    | (false, last2) => ([Ev.score p.1 p.2], sd3, scores2, last2)
  | none => ([], sd, scores, last)

/-- Processing of one stream line: the three signals in program order. -/
def gpLine (nstruct : Nat) (fascAt : Nat → Nat) (st : GpSt) (l : List Char) :
    List Ev × GpSt :=
  let lc := st.lineCount + 1
  let a := sigA nstruct fascAt lc st.structuresDone st.lastSent
  let b := sigB nstruct l a.2.1 a.2.2
  let c := sigC nstruct l st.scores b.2.1 b.2.2
  (a.1 ++ b.1 ++ c.1, ⟨lc, c.2.1, c.2.2.1, c.2.2.2⟩)

def gpGo (nstruct : Nat) (fascAt : Nat → Nat) : List (List Char) → GpSt → List Ev
  | [], _ => []
  | l :: ls, st =>
    (gpLine nstruct fascAt st l).1 ++ gpGo nstruct fascAt ls (gpLine nstruct fascAt st l).2

/-- main.py `generate_progress`, streaming portion: the initial `start` and
zero-`progress` events (lines 202-205) followed by the line loop (lines
255-311) on the given stream, with `structures_done = 0`, `scores = []`,
`last_progress_sent = -1`. -/
def generate_progress (nstruct : Nat) (fascAt : Nat → Nat)
    (lines : List (List Char)) : List Ev :=
  Ev.start nstruct :: Ev.progress 0 nstruct 0 :: gpGo nstruct fascAt lines ⟨0, 0, [], -1⟩

def evScore? : Ev → Option (ℚ × List Char)
  | .score s d => some (s, d)
  | _ => none

def evCur? : Ev → Option Nat
  | .progress c _ _ => some c
  | _ => none

/-- The payloads of the score events of an event sequence, in order. -/
def scorePayloads (evs : List Ev) : List (ℚ × List Char) := evs.filterMap evScore?

/-- The `current` values of the progress events of an event sequence. -/
def progressCurrents (evs : List Ev) : List Nat := evs.filterMap evCur?

/-! ## Lemmas about the progress tracker -/

theorem sigA_scorePayloads (n : Nat) (f : Nat → Nat) (lc sd : Nat) (last : Int) :
    scorePayloads (sigA n f lc sd last).1 = [] := by
  unfold sigA
  simp only []
  split
  · split
    · split <;> simp [scorePayloads, evScore?]
    · rfl
  · rfl

theorem sigB_scorePayloads (n : Nat) (l : List Char) (sd : Nat) (last : Int) :
    scorePayloads (sigB n l sd last).1 = [] := by
  unfold sigB
  simp only []
  split
  · split
    · split <;> simp [scorePayloads, evScore?]
    · rfl
  · rfl

theorem sigC_scorePayloads (n : Nat) (l : List Char) (scores : List (ℚ × List Char))
    (sd : Nat) (last : Int) :
    scorePayloads (sigC n l scores sd last).1 = (recScore? l).toList := by
  unfold sigC
  simp only []
  split
  · next p hp =>
    split <;> simp [scorePayloads, evScore?, hp]
  · next hp => simp [scorePayloads, hp]

theorem gpGo_scorePayloads (n : Nat) (f : Nat → Nat) :
    ∀ (ls : List (List Char)) (st : GpSt),
    scorePayloads (gpGo n f ls st) = ls.filterMap recScore? := by
  intro ls
  induction ls with
  | nil => intro st; rfl
  | cons l ls ih =>
    intro st
    rw [gpGo]
    show scorePayloads ((gpLine n f st l).1 ++ gpGo n f ls (gpLine n f st l).2) = _
    rw [scorePayloads, List.filterMap_append, ← scorePayloads, ← scorePayloads, ih]
    unfold gpLine
    rw [scorePayloads, List.filterMap_append, List.filterMap_append]
    rw [← scorePayloads, ← scorePayloads, ← scorePayloads,
      sigA_scorePayloads, sigB_scorePayloads, sigC_scorePayloads]
    rw [List.filterMap_cons]
    cases hp : recScore? l <;> simp [hp]

theorem sigA_zero (n : Nat) (f : Nat → Nat) (hf : ∀ k, f k = 0) (lc sd : Nat) (last : Int) :
    sigA n f lc sd last = ([], sd, last) := by
  unfold sigA
  rw [hf lc]
  split <;> simp

theorem sigB_noJD (n : Nat) (l : List Char) (sd : Nat) (last : Int)
    (h1 : containsSub jdPat1 l = false) (h2 : containsSub jdPat2 l = false) :
    sigB n l sd last = ([], sd, last) := by
  unfold sigB
  rw [h1, h2]
  simp

theorem gpGo_progressCurrents (n : Nat) (f : Nat → Nat) (hf : ∀ k, f k = 0) :
    ∀ (ls : List (List Char)) (st : GpSt),
    (∀ l ∈ ls, containsSub jdPat1 l = false ∧ containsSub jdPat2 l = false) →
    st.structuresDone = st.scores.length →
    st.lastSent = (if st.scores.length = 0 then (-1 : Int) else (st.scores.length : Int)) →
    progressCurrents (gpGo n f ls st) =
      List.range' (st.scores.length + 1) (ls.countP (fun l => (recScore? l).isSome)) := by
  intro ls
  induction ls with
  | nil => intro st _ _ _; rfl
  | cons l ls ih =>
    intro st hjd hsd hlast
    rw [gpGo]
    show progressCurrents ((gpLine n f st l).1 ++ gpGo n f ls (gpLine n f st l).2) = _
    have hA := sigA_zero n f hf (st.lineCount + 1) st.structuresDone st.lastSent
    have hB := sigB_noJD n l st.structuresDone st.lastSent (hjd l (by simp)).1
      (hjd l (by simp)).2
    cases hp : recScore? l with
    | none =>
      simp only [gpLine, hA, hB, sigC, hp, List.nil_append]
      have ihx := ih (⟨st.lineCount + 1, st.structuresDone, st.scores, st.lastSent⟩ : GpSt)
        (fun x hx => hjd x (List.mem_cons_of_mem _ hx)) hsd hlast
      rw [ihx, List.countP_cons_of_neg _ _ (by simp [hp])]
    | some p =>
      have hcond : (((st.scores ++ [p]).length : Nat) : Int) ≠ st.lastSent := by
        rw [hlast, List.length_append]
        split <;> simp <;> omega
      have hss : shouldSend (st.scores ++ [p]).length st.lastSent =
          (true, ((st.scores ++ [p]).length : Int)) := by
        rw [shouldSend, if_pos hcond]
      simp only [gpLine, hA, hB, sigC, hp, hss, List.nil_append]
      rw [List.countP_cons_of_pos _ _ (by simp [hp])]
      have ihx := ih (⟨st.lineCount + 1, (st.scores ++ [p]).length, st.scores ++ [p],
          ((st.scores ++ [p]).length : Int)⟩ : GpSt)
        (fun x hx => hjd x (List.mem_cons_of_mem _ hx)) rfl (by simp)
      simp only [progressCurrents, List.cons_append, List.nil_append, List.filterMap_cons,
        evCur?, List.length_append, List.length_cons, List.length_nil] at ihx ⊢
      rw [ihx, List.range'_succ]

/-! ## Claims C1 and C6 -/

def jdLine : List Char := "protocols.jd2.JobDistributor job 5".data

def scLine1 : List Char := "SCORE: 1.0 m_0001".data

def scLine2 : List Char := "SCORE: 2.0 m_0002".data

/-- C1 counterexample: on a stream whose first line is a job-distributor
line reporting job 5 and whose second line is a recognized score line, the
emitted progress currents are `[0, 5, 1]` — not non-decreasing.  The score
branch overwrites the combined count with `len(scores)` (main.py line 301)
instead of taking a maximum, so a later score line can lower the count
below an earlier job-distributor report. -/
theorem claim_C1_cex :
    ¬ List.Chain' (· ≤ ·)
      (progressCurrents (generate_progress 10 (fun _ => 0) [jdLine, scLine1])) := by
  rw [show progressCurrents (generate_progress 10 (fun _ => 0) [jdLine, scLine1]) =
    [0, 5, 1] from by decide]
  simp [List.chain'_cons]

/-- C1 (amended): for every simulated stream with K recognized score lines,
the tracker emits exactly K score events in arrival order, carrying the
parsed score and descriptor of each recognized line; and provided the
stream contains no job-distributor lines and every score-table re-read
reports zero, the progress events carry exactly the values `0, 1, …, K` in
order — hence non-decreasing and changing exactly when the completed count
changes.  (Without those provisos the progress values can decrease, see the
counterexample.) -/
theorem claim_C1 (nstruct : Nat) (fascAt : Nat → Nat) (lines : List (List Char)) :
    scorePayloads (generate_progress nstruct fascAt lines) = lines.filterMap recScore? ∧
    ((∀ l ∈ lines, containsSub jdPat1 l = false ∧ containsSub jdPat2 l = false) →
      (∀ k, fascAt k = 0) →
      progressCurrents (generate_progress nstruct fascAt lines) =
        List.range (lines.countP (fun l => (recScore? l).isSome) + 1)) := by
  constructor
  · unfold generate_progress
    rw [scorePayloads, List.filterMap_cons, List.filterMap_cons]
    simp only [evScore?]
    exact gpGo_scorePayloads nstruct fascAt lines _
  · intro hjd hf
    unfold generate_progress
    rw [progressCurrents, List.filterMap_cons, List.filterMap_cons]
    simp only [evCur?]
    rw [← progressCurrents, gpGo_progressCurrents nstruct fascAt hf lines _ hjd rfl rfl]
    rw [List.range_eq_range', List.range'_succ]
    rfl

/-- Concrete instantiation of `claim_C1` on a three-line stream (score,
remark, score): both conclusions hold with K = 2. -/
theorem claim_C1_witness :
    scorePayloads (generate_progress 4 (fun _ => 0) [scLine1, remarkLine, scLine2]) =
      [scLine1, remarkLine, scLine2].filterMap recScore? ∧
    progressCurrents (generate_progress 4 (fun _ => 0) [scLine1, remarkLine, scLine2]) =
      List.range ([scLine1, remarkLine, scLine2].countP
        (fun l => (recScore? l).isSome) + 1) :=
  ⟨(claim_C1 4 (fun _ => 0) [scLine1, remarkLine, scLine2]).1,
   (claim_C1 4 (fun _ => 0) [scLine1, remarkLine, scLine2]).2 (by decide) (fun _ => rfl)⟩

/-- C6 counterexample: with nstruct = 3 the second completed structure emits
`percent = 66` (the double product `fl(fl(2/3)·100) ≈ 66.666…657` truncated
toward zero), while the claim's formula `min(100, round(100·2/3)) = 67`: the
code truncates rather than rounding to nearest. -/
theorem claim_C6_cex :
    Ev.progress 2 3 66 ∈ generate_progress 3 (fun _ => 0) [scLine1, scLine2] ∧
    (66 : ℤ) ≠ min 100 (round ((100 * 2 : ℚ) / 3)) := by
  constructor
  · decide
  · norm_num [round_eq]

/-- Field extraction for a progress event equated with an emission site. -/
theorem progress_eq_shape {c t p X n : Nat}
    (h : Ev.progress c t p = Ev.progress X n (pct X n)) : t = n ∧ p = pct c n := by
  injection h with h1 h2 h3
  subst h1
  subst h2
  subst h3
  exact ⟨rfl, rfl⟩

/-- C6 (amended): every progress event emitted by the tracker carries
`total = nstruct` and `percent = min(100, int(fl(fl(current/nstruct)·100)))`,
where `fl` is IEEE-754 double rounding (`roundDouble`) and `int()` truncates
toward zero — not the claim's rounding to nearest of the exact ratio (and,
through the double roundings, occasionally one below its exact floor, as at
29 of 100). -/
theorem claim_C6 (nstruct : Nat) (fascAt : Nat → Nat) (lines : List (List Char))
    (hn : 0 < nstruct) :
    ∀ e ∈ generate_progress nstruct fascAt lines, ∀ c t p, e = Ev.progress c t p →
      t = nstruct ∧
      p = min 100 (pyIntTrunc (roundDouble (roundDouble ((c : ℚ) / (nstruct : ℚ)) * 100))).toNat := by
  have hshape : ∀ (ls : List (List Char)) (st : GpSt),
      ∀ e ∈ gpGo nstruct fascAt ls st,
      (∀ c t p, e = Ev.progress c t p → t = nstruct ∧ p = pct c nstruct) := by
    intro ls
    induction ls with
    | nil => intro st e he; exact absurd he (by simp [gpGo])
    | cons l ls ih =>
      intro st e he
      rw [gpGo] at he
      rcases List.mem_append.mp he with he | he
      · have hsig : ∀ (evs : List Ev) (kind : Unit),
            evs = (gpLine nstruct fascAt st l).1 → True := fun _ _ _ => trivial
        clear hsig
        have hA : ∀ e2 ∈ (sigA nstruct fascAt (st.lineCount + 1) st.structuresDone
            st.lastSent).1, ∀ c t p, e2 = Ev.progress c t p →
            t = nstruct ∧ p = pct c nstruct := by
          unfold sigA
          simp only []
          split
          · split
            · split
              · intro e2 he2 c t p hep
                rw [hep] at he2
                simp only [List.mem_singleton] at he2
                exact progress_eq_shape he2
              · intro e2 he2; exact absurd he2 (by simp)
            · intro e2 he2; exact absurd he2 (by simp)
          · intro e2 he2; exact absurd he2 (by simp)
        have hB : ∀ sd last, ∀ e2 ∈ (sigB nstruct l sd last).1,
            ∀ c t p, e2 = Ev.progress c t p → t = nstruct ∧ p = pct c nstruct := by
          intro sd last
          unfold sigB
          simp only []
          split
          · split
            · split
              · intro e2 he2 c t p hep
                rw [hep] at he2
                simp only [List.mem_singleton] at he2
                exact progress_eq_shape he2
              · intro e2 he2; exact absurd he2 (by simp)
            · intro e2 he2; exact absurd he2 (by simp)
          · intro e2 he2; exact absurd he2 (by simp)
        have hC : ∀ scores sd last, ∀ e2 ∈ (sigC nstruct l scores sd last).1,
            ∀ c t p, e2 = Ev.progress c t p → t = nstruct ∧ p = pct c nstruct := by
          intro scores sd last
          unfold sigC
          simp only []
          split
          · split
            · intro e2 he2 c t p hep
              rw [hep] at he2
              rcases List.mem_cons.mp he2 with he3 | he3
              · exact progress_eq_shape he3
              · exact absurd he3 (by simp)
            · intro e2 he2 c t p hep
              rw [hep] at he2
              exact absurd he2 (by simp)
          · intro e2 he2; exact absurd he2 (by simp)
        unfold gpLine at he
        simp only [] at he
        rcases List.mem_append.mp he with he2 | he2
        · rcases List.mem_append.mp he2 with he3 | he3
          · exact hA e he3
          · exact hB _ _ e he3
        · exact hC _ _ _ e he2
      · exact ih _ e he
  intro e he c t p hep
  rcases List.mem_cons.mp he with rfl | he
  · exact absurd hep (by simp)
  rcases List.mem_cons.mp he with rfl | he
  · injection hep with h1 h2 h3
    refine ⟨h2.symm, ?_⟩
    rw [← h3, ← h1]
    rw [Nat.cast_zero, zero_div, roundDouble_zero, zero_mul, roundDouble_zero]
    decide
  · have hsp := hshape lines _ e he c t p hep
    refine ⟨hsp.1, ?_⟩
    rw [hsp.2]
    unfold pct
    rw [ratOfNatDiv_eq, times100_eq]

/-- Concrete instantiation of `claim_C6`: the event `progress 2 3 66` of a
two-score-line stream satisfies the double-precision truncation formula. -/
theorem claim_C6_witness :
    Ev.progress 2 3 66 ∈ generate_progress 3 (fun _ => 0) [scLine1, scLine2] ∧
    (3 = 3 ∧ 66 = min 100 (pyIntTrunc (roundDouble (roundDouble
      (((2 : Nat) : ℚ) / ((3 : Nat) : ℚ)) * 100))).toNat) :=
  ⟨by decide, claim_C6 3 (fun _ => 0) [scLine1, scLine2] (by decide)
    (Ev.progress 2 3 66) (by decide) 2 3 66 rfl⟩

/-! ## Structure merger (pipeline.py `combine_in_python`, lines 540-604)

Atom coordinates are real 3-vectors (`EuclideanSpace ℝ (Fin 3)`); the numpy
float arithmetic of the source is modelled as exact real arithmetic.  A
structure is its list of atom coordinates in file order (the chain/model
hierarchy of Biopython is flattened: chain identities do not affect the
geometry, and the structures handled by the pipeline are single-model).
The definitions in this section are necessarily noncomputable (real
arithmetic); concrete instances are evaluated by proof instead of by
`decide`. -/

noncomputable section

abbrev Pt := EuclideanSpace ℝ (Fin 3)

/-- A coordinate triple. -/
def mkPt (a b c : ℝ) : Pt := ![a, b, c]

/-- All (receptor atom, binder atom) pairs in row-major order, matching the
`dists` matrix `rec_coords[:, None, :] - bin_coords[None, :, :]`. -/
def pairList (rc bc : List Pt) : List (Pt × Pt) :=
  rc.flatMap (fun r => bc.map (fun b => (r, b)))

/-- `np.min` over a list of reals (numpy raises on an empty array; the `0`
default is never used on the nonempty inputs considered). -/
def listMin : List ℝ → ℝ
  | [] => 0
  | x :: xs => xs.foldl min x

/-- The flattened `dists` matrix. -/
def distList (rc bc : List Pt) : List ℝ :=
  (pairList rc bc).map (fun pr => dist pr.1 pr.2)

/-- `np.unravel_index(np.argmin(dists), dists.shape)`: the first pair (in
row-major order) whose distance attains the minimum. -/
def anchorPair (rc bc : List Pt) : Option (Pt × Pt) :=
  (pairList rc bc).find? (fun pr => decide (dist pr.1 pr.2 ≤ listMin (distList rc bc)))

/-- Minimum inter-structure distance after shifting every binder atom by
`s`, binder-major as in the code's test computation
`np.min(norm((bin_coords + shift)[:, None, :] - rec_coords[None, :, :]))`. -/
def shiftedMin (rc bc : List Pt) (s : Pt) : ℝ :=
  listMin (distList (bc.map (fun b => b + s)) rc)

/-- pipeline.py lines 566-572: the anchor vector with the degenerate-norm
guard — `vec = [1,0,0]; norm = 1.0` when `norm < 1e-6` — followed by
`unit = vec / norm`. -/
def unitOf (vec : Pt) : Pt :=
  if ‖vec‖ < 1 / 1000000 then (1 : ℝ)⁻¹ • mkPt 1 0 0 else ‖vec‖⁻¹ • vec

/-- The (possibly defaulted) anchor norm. -/
def normOf (vec : Pt) : ℝ := if ‖vec‖ < 1 / 1000000 then 1 else ‖vec‖

/-- pipeline.py lines 561-590: find the closest pair, build the two
candidate translations `±(norm - gap)·unit`, recompute each candidate's
resulting minimum inter-structure distance, and keep the candidate whose
result is closer to `gap` (`shift_forward` wins only on a strict
comparison).  The `none` anchor case is unreachable for the nonempty
structures considered (numpy would raise on an empty coordinate array). -/
def combineShift (rc bc : List Pt) (gap : ℝ) : Pt :=
  match anchorPair rc bc with
  | none => 0
  | some (ra, ba) =>
    if |shiftedMin rc bc ((-(normOf (ra - ba) - gap)) • unitOf (ra - ba)) - gap| <
        |shiftedMin rc bc ((normOf (ra - ba) - gap) • unitOf (ra - ba)) - gap| then
      (-(normOf (ra - ba) - gap)) • unitOf (ra - ba)
    else (normOf (ra - ba) - gap) • unitOf (ra - ba)

/-- The atom list of the merged complex: the receptor's atoms followed by
the translated binder's atoms (pipeline.py lines 593-604: the binder chains
are appended to the receptor model and the combined structure is written
out). -/
def combined_atoms (rc bc : List Pt) (gap : ℝ) : List Pt :=
  rc ++ bc.map (fun b => b + combineShift rc bc gap)

/-- The minimum receptor-binder atom distance of the merged complex. -/
def combinedMinDist (rc bc : List Pt) (gap : ℝ) : ℝ :=
  shiftedMin rc bc (combineShift rc bc gap)

/-- pipeline.py `combine_in_python`: the content written to `out` is the
merged atom list; the output path influences only where the file lands,
never its content. -/
def combine_in_python (rc bc : List Pt) (gap : ℝ) (outPath : List Char) : List Pt :=
  combined_atoms rc bc gap

end

/-! ### Minimum-of-list lemmas -/

theorem foldl_min_le_init (xs : List ℝ) : ∀ a : ℝ, xs.foldl min a ≤ a := by
  induction xs with
  | nil => intro a; exact le_refl a
  | cons x xs ih =>
    intro a
    calc (x :: xs).foldl min a = xs.foldl min (min a x) := rfl
    _ ≤ min a x := ih (min a x)
    _ ≤ a := min_le_left a x

theorem foldl_min_le_mem (xs : List ℝ) : ∀ (a x : ℝ), x ∈ xs → xs.foldl min a ≤ x := by
  induction xs with
  | nil => intro a x h; exact absurd h (by simp)
  | cons y ys ih =>
    intro a x h
    rcases List.mem_cons.mp h with rfl | h
    · calc (x :: ys).foldl min a = ys.foldl min (min a x) := rfl
      _ ≤ min a x := foldl_min_le_init ys (min a x)
      _ ≤ x := min_le_right a x
    · exact ih (min a y) x h

theorem le_foldl_min (xs : List ℝ) : ∀ (a y : ℝ), y ≤ a → (∀ x ∈ xs, y ≤ x) →
    y ≤ xs.foldl min a := by
  induction xs with
  | nil => intro a y h _; exact h
  | cons x xs ih =>
    intro a y ha hx
    exact ih (min a x) y (le_min ha (hx x (by simp))) (fun z hz => hx z (by simp [hz]))

theorem foldl_min_mem (xs : List ℝ) : ∀ a : ℝ, xs.foldl min a = a ∨ xs.foldl min a ∈ xs := by
  induction xs with
  | nil => intro a; exact Or.inl rfl
  | cons x xs ih =>
    intro a
    rcases ih (min a x) with h | h
    · rcases min_choice a x with h2 | h2
      · exact Or.inl (by rw [List.foldl_cons, h, h2])
      · refine Or.inr ?_
        rw [List.foldl_cons, h, h2]
        exact List.mem_cons_self x xs
    · exact Or.inr (List.mem_cons_of_mem x h)

theorem listMin_le {l : List ℝ} {x : ℝ} (h : x ∈ l) : listMin l ≤ x := by
  cases l with
  | nil => exact absurd h (by simp)
  | cons y ys =>
    rcases List.mem_cons.mp h with rfl | h
    · exact foldl_min_le_init ys x
    · exact foldl_min_le_mem ys y x h

theorem le_listMin {l : List ℝ} {y : ℝ} (hne : l ≠ []) (h : ∀ x ∈ l, y ≤ x) :
    y ≤ listMin l := by
  cases l with
  | nil => exact absurd rfl hne
  | cons x xs => exact le_foldl_min xs x y (h x (by simp)) (fun z hz => h z (by simp [hz]))

theorem listMin_mem {l : List ℝ} (hne : l ≠ []) : listMin l ∈ l := by
  cases l with
  | nil => exact absurd rfl hne
  | cons x xs =>
    rcases foldl_min_mem xs x with h | h
    · rw [listMin, h]; exact List.mem_cons_self x xs
    · exact List.mem_cons_of_mem x h

/-! ### Anchor-pair and shifted-minimum lemmas -/

theorem mem_pairList {rc bc : List Pt} {r b : Pt} :
    (r, b) ∈ pairList rc bc ↔ r ∈ rc ∧ b ∈ bc := by
  simp only [pairList, List.mem_flatMap, List.mem_map, Prod.mk.injEq]
  constructor
  · rintro ⟨a, ha, c, hc, rfl, rfl⟩
    exact ⟨ha, hc⟩
  · rintro ⟨ha, hc⟩
    exact ⟨r, ha, b, hc, rfl, rfl⟩

theorem pairList_ne_nil {rc bc : List Pt} (hr : rc ≠ []) (hb : bc ≠ []) :
    pairList rc bc ≠ [] := by
  cases rc with
  | nil => exact absurd rfl hr
  | cons r rs =>
    cases bc with
    | nil => exact absurd rfl hb
    | cons b bs => simp [pairList]

theorem distList_ne_nil {rc bc : List Pt} (hr : rc ≠ []) (hb : bc ≠ []) :
    distList rc bc ≠ [] := by
  unfold distList
  rw [Ne, List.map_eq_nil_iff]
  exact pairList_ne_nil hr hb

theorem anchorPair_spec {rc bc : List Pt} (hr : rc ≠ []) (hb : bc ≠ []) :
    ∃ ra ba, anchorPair rc bc = some (ra, ba) ∧ ra ∈ rc ∧ ba ∈ bc ∧
      dist ra ba = listMin (distList rc bc) := by
  have hne := distList_ne_nil hr hb
  have hmem := listMin_mem hne
  obtain ⟨pr, hpr, heq⟩ := List.mem_map.mp
    (show listMin (distList rc bc) ∈ (pairList rc bc).map (fun pr => dist pr.1 pr.2)
      from hmem)
  have hsome : ((pairList rc bc).find?
      (fun q => decide (dist q.1 q.2 ≤ listMin (distList rc bc)))).isSome := by
    rw [List.find?_isSome]
    exact ⟨pr, hpr, by rw [heq]; simp⟩
  obtain ⟨q, hq⟩ := Option.isSome_iff_exists.mp hsome
  obtain ⟨q1, q2⟩ := q
  have hple := List.find?_some hq
  have hmemq := List.mem_of_find?_eq_some hq
  refine ⟨q1, q2, ?_, ?_, ?_, ?_⟩
  · rw [anchorPair, hq]
  · exact (mem_pairList.mp hmemq).1
  · exact (mem_pairList.mp hmemq).2
  · refine le_antisymm (of_decide_eq_true hple) (listMin_le ?_)
    show dist q1 q2 ∈ (pairList rc bc).map (fun pr => dist pr.1 pr.2)
    exact List.mem_map.mpr ⟨(q1, q2), hmemq, rfl⟩

theorem dist_add_ge (b r s : Pt) : dist b r - ‖s‖ ≤ dist (b + s) r := by
  have h := dist_triangle b (b + s) r
  have h2 : dist b (b + s) = ‖s‖ := by
    rw [dist_eq_norm]
    simp
  linarith

theorem shiftedMin_ge {rc bc : List Pt} (hr : rc ≠ []) (hb : bc ≠ []) (s : Pt) {g : ℝ}
    (h : ∀ b ∈ bc, ∀ r ∈ rc, g ≤ dist (b + s) r) : g ≤ shiftedMin rc bc s := by
  apply le_listMin (distList_ne_nil (by rw [Ne, List.map_eq_nil_iff]; exact hb) hr)
  intro x hx
  obtain ⟨pr, hpr, heq⟩ := List.mem_map.mp
    (show x ∈ (pairList (bc.map (fun b => b + s)) rc).map (fun pr => dist pr.1 pr.2)
      from hx)
  obtain ⟨p1, p2⟩ := pr
  have hm := mem_pairList.mp hpr
  obtain ⟨b, hbm, hbeq⟩ := List.mem_map.mp hm.1
  rw [← heq]
  show g ≤ dist p1 p2
  rw [← hbeq]
  exact h b hbm p2 hm.2

theorem shiftedMin_le {rc bc : List Pt} {b r : Pt} (hbm : b ∈ bc) (hrm : r ∈ rc) (s : Pt) :
    shiftedMin rc bc s ≤ dist (b + s) r := by
  apply listMin_le
  rw [distList]
  exact List.mem_map.mpr ⟨(b + s, r),
    mem_pairList.mpr ⟨List.mem_map.mpr ⟨b, hbm, rfl⟩, hrm⟩, rfl⟩

/-! ## Claims C4 and C5 -/

/-- C4 (amended): for nonempty receptor and binder structures whose
original minimum inter-structure distance is at least the configured gap
(and above the degeneracy epsilon), the merged complex has as many atoms as
the two inputs together, and its minimum receptor-binder distance equals
the gap exactly (in exact arithmetic; up to floating-point tolerance in the
source).  When the structures start closer than the gap this fails, see the
counterexample. -/
theorem claim_C4 (rc bc : List Pt) (gap : ℝ) (hr : rc ≠ []) (hb : bc ≠ [])
    (hgap : 0 ≤ gap) (hmin : gap ≤ listMin (distList rc bc))
    (heps : 1 / 1000000 ≤ listMin (distList rc bc)) :
    (combined_atoms rc bc gap).length = rc.length + bc.length ∧
    combinedMinDist rc bc gap = gap := by
  obtain ⟨ra, ba, hanch, hra, hba, hd⟩ := anchorPair_spec hr hb
  set m := listMin (distList rc bc) with hm
  have hm0 : 0 < m := lt_of_lt_of_le (by norm_num) heps
  have hvec : ‖ra - ba‖ = m := by rw [← dist_eq_norm, hd]
  have hneps : ¬ ‖ra - ba‖ < 1 / 1000000 := by rw [hvec]; exact not_lt.mpr heps
  have hnormOf : normOf (ra - ba) = m := by rw [normOf, if_neg hneps, hvec]
  have hunit : unitOf (ra - ba) = m⁻¹ • (ra - ba) := by rw [unitOf, if_neg hneps, hvec]
  have hunitnorm : ‖unitOf (ra - ba)‖ = 1 := by
    rw [hunit, norm_smul, hvec, norm_inv, Real.norm_eq_abs, abs_of_pos hm0]
    field_simp
  have hsbnorm : ‖(normOf (ra - ba) - gap) • unitOf (ra - ba)‖ = m - gap := by
    rw [norm_smul, hunitnorm, mul_one, hnormOf, Real.norm_eq_abs,
      abs_of_nonneg (by linarith)]
  have hsfnorm : ‖(-(normOf (ra - ba) - gap)) • unitOf (ra - ba)‖ = m - gap := by
    rw [norm_smul, hunitnorm, mul_one, hnormOf, Real.norm_eq_abs, abs_neg,
      abs_of_nonneg (by linarith)]
  have hlow : ∀ s : Pt, ‖s‖ = m - gap → gap ≤ shiftedMin rc bc s := by
    intro s hs
    apply shiftedMin_ge hr hb
    intro b hbm r hrm
    have h1 := dist_add_ge b r s
    have h2 : m ≤ dist b r := by
      rw [dist_comm]
      refine listMin_le ?_
      show dist r b ∈ (pairList rc bc).map (fun pr => dist pr.1 pr.2)
      exact List.mem_map.mpr ⟨(r, b), mem_pairList.mpr ⟨hrm, hbm⟩, rfl⟩
    rw [hs] at h1
    linarith
  have hmu : ra - ba = m • (m⁻¹ • (ra - ba)) := by
    rw [smul_smul, mul_inv_cancel₀ (ne_of_gt hm0), one_smul]
  have hanchor_dist :
      dist (ba + (normOf (ra - ba) - gap) • unitOf (ra - ba)) ra = gap := by
    rw [dist_eq_norm, hnormOf, hunit]
    calc ‖ba + (m - gap) • m⁻¹ • (ra - ba) - ra‖
        = ‖-((ra - ba) - (m - gap) • m⁻¹ • (ra - ba))‖ := by congr 1; abel
      _ = ‖(ra - ba) - (m - gap) • m⁻¹ • (ra - ba)‖ := norm_neg _
      _ = ‖m • (m⁻¹ • (ra - ba)) - (m - gap) • m⁻¹ • (ra - ba)‖ := by rw [← hmu]
      _ = ‖(m - (m - gap)) • (m⁻¹ • (ra - ba))‖ := by rw [← sub_smul]
      _ = ‖gap • (m⁻¹ • (ra - ba))‖ := by norm_num
      _ = |gap| * ‖m⁻¹ • (ra - ba)‖ := by rw [norm_smul, Real.norm_eq_abs]
      _ = gap := by
          rw [abs_of_nonneg hgap, show m⁻¹ • (ra - ba) = unitOf (ra - ba) from hunit.symm,
            hunitnorm, mul_one]
  have ht2 : shiftedMin rc bc ((normOf (ra - ba) - gap) • unitOf (ra - ba)) = gap := by
    refine le_antisymm ?_ (hlow _ hsbnorm)
    calc shiftedMin rc bc ((normOf (ra - ba) - gap) • unitOf (ra - ba))
        ≤ dist (ba + (normOf (ra - ba) - gap) • unitOf (ra - ba)) ra :=
          shiftedMin_le hba hra _
      _ = gap := hanchor_dist
  have hsel : ¬ |shiftedMin rc bc ((-(normOf (ra - ba) - gap)) • unitOf (ra - ba)) - gap| <
      |shiftedMin rc bc ((normOf (ra - ba) - gap) • unitOf (ra - ba)) - gap| := by
    rw [ht2, sub_self, abs_zero]
    exact not_lt.mpr (abs_nonneg _)
  have hshift : combineShift rc bc gap =
      (normOf (ra - ba) - gap) • unitOf (ra - ba) := by
    unfold combineShift
    rw [hanch]
    simp only []
    rw [if_neg hsel]
  constructor
  · simp [combined_atoms]
  · rw [combinedMinDist, hshift]
    exact ht2

/-- Concrete instantiation of `claim_C4`: a one-atom receptor at the origin
and a one-atom binder at distance 3, merged with gap 2, give a two-atom
complex at minimum distance exactly 2. -/
theorem claim_C4_witness :
    (combined_atoms [mkPt 0 0 0] [mkPt 3 0 0] 2).length = 2 ∧
    combinedMinDist [mkPt 0 0 0] [mkPt 3 0 0] 2 = 2 := by
  have hd : dist (mkPt 0 0 0) (mkPt 3 0 0) = 3 := by
    rw [EuclideanSpace.dist_eq]
    simp only [mkPt, Fin.sum_univ_three, Real.dist_eq, Matrix.cons_val_zero,
      Matrix.cons_val_one, Matrix.head_cons, Matrix.cons_val_two, Matrix.tail_cons]
    rw [show |(0:ℝ) - 3| ^ 2 + |(0:ℝ) - 0| ^ 2 + |(0:ℝ) - 0| ^ 2 = 3 ^ 2 by
      rw [abs_sub_comm, abs_sub_comm (0:ℝ) 0]
      norm_num]
    exact Real.sqrt_sq (by norm_num)
  have hlm : listMin (distList [mkPt 0 0 0] [mkPt 3 0 0]) = 3 := by
    show listMin [dist (mkPt 0 0 0) (mkPt 3 0 0)] = 3
    rw [listMin, List.foldl_nil, hd]
  have h := claim_C4 [mkPt 0 0 0] [mkPt 3 0 0] 2 (by simp) (by simp) (by norm_num)
    (by rw [hlm]; norm_num) (by rw [hlm]; norm_num)
  exact ⟨by rw [h.1]; rfl, h.2⟩

theorem dist_mkPt (a b c d e f : ℝ) :
    dist (mkPt a b c) (mkPt d e f) =
      Real.sqrt ((a - d) ^ 2 + (b - e) ^ 2 + (c - f) ^ 2) := by
  rw [EuclideanSpace.dist_eq]
  simp only [mkPt, Fin.sum_univ_three, Real.dist_eq, Matrix.cons_val_zero,
    Matrix.cons_val_one, Matrix.head_cons, Matrix.cons_val_two, Matrix.tail_cons]
  rw [sq_abs, sq_abs, sq_abs]

theorem mkPt_add (a b c d e f : ℝ) :
    mkPt a b c + mkPt d e f = mkPt (a + d) (b + e) (c + f) := by
  funext i
  fin_cases i <;> simp [mkPt]

theorem mkPt_sub (a b c d e f : ℝ) :
    mkPt a b c - mkPt d e f = mkPt (a - d) (b - e) (c - f) := by
  funext i
  fin_cases i <;> simp [mkPt]

theorem mkPt_smul (k a b c : ℝ) : k • mkPt a b c = mkPt (k * a) (k * b) (k * c) := by
  funext i
  fin_cases i <;> simp [mkPt]

/-- C4 counterexample: receptor `[(0,0,0)]`, binder `[(1,0,0), (-1,3/4,0)]`,
gap 2.  The structures start closer than the gap (min distance 1 < 2), so
moving the binder away puts the anchor pair at distance 2 but carries the
second binder atom to `(0,3/4,0)`, at distance 3/4 from the receptor: the
resulting minimum inter-structure distance is 3/4, missing the configured
gap by 5/4 — not within any small tolerance (here: more than 1/2 off). -/
theorem claim_C4_cex :
    combinedMinDist [mkPt 0 0 0] [mkPt 1 0 0, mkPt (-1) (3 / 4) 0] 2 = 3 / 4 ∧
    ¬ |combinedMinDist [mkPt 0 0 0] [mkPt 1 0 0, mkPt (-1) (3 / 4) 0] 2 - 2| ≤ 1 / 2 := by
  have hd1 : dist (mkPt 0 0 0) (mkPt 1 0 0) = 1 := by
    rw [dist_mkPt, show ((0:ℝ) - 1) ^ 2 + (0 - 0) ^ 2 + (0 - 0) ^ 2 = 1 ^ 2 by norm_num]
    exact Real.sqrt_sq (by norm_num)
  have hd2 : dist (mkPt 0 0 0) (mkPt (-1) (3 / 4) 0) = 5 / 4 := by
    rw [dist_mkPt,
      show ((0:ℝ) - -1) ^ 2 + (0 - 3 / 4) ^ 2 + (0 - 0) ^ 2 = (5 / 4) ^ 2 by norm_num]
    exact Real.sqrt_sq (by norm_num)
  have hlm : listMin (distList [mkPt 0 0 0] [mkPt 1 0 0, mkPt (-1) (3 / 4) 0]) = 1 := by
    show listMin [dist (mkPt 0 0 0) (mkPt 1 0 0), dist (mkPt 0 0 0) (mkPt (-1) (3 / 4) 0)]
      = 1
    rw [listMin, List.foldl_cons, List.foldl_nil, hd1, hd2]
    exact min_eq_left (by norm_num)
  have hanch : anchorPair [mkPt 0 0 0] [mkPt 1 0 0, mkPt (-1) (3 / 4) 0] =
      some (mkPt 0 0 0, mkPt 1 0 0) := by
    show List.find? (fun pr => decide (dist pr.1 pr.2 ≤
        listMin (distList [mkPt 0 0 0] [mkPt 1 0 0, mkPt (-1) (3 / 4) 0])))
      [(mkPt 0 0 0, mkPt 1 0 0), (mkPt 0 0 0, mkPt (-1) (3 / 4) 0)] =
      some (mkPt 0 0 0, mkPt 1 0 0)
    exact List.find?_cons_of_pos _ (by simp [hd1, hlm])
  have hvec : mkPt 0 0 0 - mkPt 1 0 0 = mkPt (-1) 0 0 := by
    rw [mkPt_sub]
    norm_num
  have hnv : ‖mkPt 0 0 0 - mkPt 1 0 0‖ = 1 := by
    rw [← dist_eq_norm, hd1]
  have hno : normOf (mkPt 0 0 0 - mkPt 1 0 0) = 1 := by
    rw [normOf, if_neg (by rw [hnv]; norm_num), hnv]
  have hu : unitOf (mkPt 0 0 0 - mkPt 1 0 0) = mkPt (-1) 0 0 := by
    rw [unitOf, if_neg (by rw [hnv]; norm_num), hnv, hvec]
    norm_num
  have hsf : (-(normOf (mkPt 0 0 0 - mkPt 1 0 0) - 2)) •
      unitOf (mkPt 0 0 0 - mkPt 1 0 0) = mkPt (-1) 0 0 := by
    rw [hno, hu, show (-((1:ℝ) - 2)) = 1 by norm_num, one_smul]
  have hsb : (normOf (mkPt 0 0 0 - mkPt 1 0 0) - 2) •
      unitOf (mkPt 0 0 0 - mkPt 1 0 0) = mkPt 1 0 0 := by
    rw [hno, hu, mkPt_smul]
    norm_num
  have hb1sf : mkPt 1 0 0 + mkPt (-1) 0 0 = mkPt 0 0 0 := by
    rw [mkPt_add]; norm_num
  have hb2sf : mkPt (-1) (3 / 4) 0 + mkPt (-1) 0 0 = mkPt (-2) (3 / 4) 0 := by
    rw [mkPt_add]; norm_num
  have hb1sb : mkPt 1 0 0 + mkPt 1 0 0 = mkPt 2 0 0 := by
    rw [mkPt_add]; norm_num
  have hb2sb : mkPt (-1) (3 / 4) 0 + mkPt 1 0 0 = mkPt 0 (3 / 4) 0 := by
    rw [mkPt_add]; norm_num
  have hdsb1 : dist (mkPt 2 0 0) (mkPt 0 0 0) = 2 := by
    rw [dist_mkPt, show ((2:ℝ) - 0) ^ 2 + (0 - 0) ^ 2 + (0 - 0) ^ 2 = 2 ^ 2 by norm_num]
    exact Real.sqrt_sq (by norm_num)
  have hdsb2 : dist (mkPt 0 (3 / 4) 0) (mkPt 0 0 0) = 3 / 4 := by
    rw [dist_mkPt,
      show ((0:ℝ) - 0) ^ 2 + (3 / 4 - 0) ^ 2 + (0 - 0) ^ 2 = (3 / 4) ^ 2 by norm_num]
    exact Real.sqrt_sq (by norm_num)
  have ht1 : shiftedMin [mkPt 0 0 0] [mkPt 1 0 0, mkPt (-1) (3 / 4) 0]
      (mkPt (-1) 0 0) = 0 := by
    show listMin [dist (mkPt 1 0 0 + mkPt (-1) 0 0) (mkPt 0 0 0),
      dist (mkPt (-1) (3 / 4) 0 + mkPt (-1) 0 0) (mkPt 0 0 0)] = 0
    rw [hb1sf, hb2sf, dist_self, listMin, List.foldl_cons, List.foldl_nil]
    exact min_eq_left dist_nonneg
  have ht2 : shiftedMin [mkPt 0 0 0] [mkPt 1 0 0, mkPt (-1) (3 / 4) 0]
      (mkPt 1 0 0) = 3 / 4 := by
    show listMin [dist (mkPt 1 0 0 + mkPt 1 0 0) (mkPt 0 0 0),
      dist (mkPt (-1) (3 / 4) 0 + mkPt 1 0 0) (mkPt 0 0 0)] = 3 / 4
    rw [hb1sb, hb2sb, hdsb1, hdsb2, listMin, List.foldl_cons, List.foldl_nil]
    exact min_eq_right (by norm_num)
  have hcs : combineShift [mkPt 0 0 0] [mkPt 1 0 0, mkPt (-1) (3 / 4) 0] 2 =
      mkPt 1 0 0 := by
    unfold combineShift
    rw [hanch]
    simp only []
    rw [hsf, hsb, ht1, ht2]
    rw [if_neg (by rw [show |(0:ℝ) - 2| = 2 by norm_num [abs_of_nonpos],
      show |(3:ℝ) / 4 - 2| = 5 / 4 by norm_num [abs_of_nonpos]]; norm_num)]
  have hfinal : combinedMinDist [mkPt 0 0 0] [mkPt 1 0 0, mkPt (-1) (3 / 4) 0] 2 =
      3 / 4 := by
    rw [combinedMinDist, hcs]
    exact ht2
  refine ⟨hfinal, ?_⟩
  rw [hfinal, show |(3:ℝ) / 4 - 2| = 5 / 4 by norm_num [abs_of_nonpos]]
  norm_num

/-- C5: `combine_in_python` is a pure, deterministic function of the
receptor atoms, binder atoms and gap.  In this embedding the written file
content is the merged atom list (the PDB serialization of the source is a
fixed function of that structure); the theorem states that two invocations
on identical inputs produce identical content, whatever differs about the
call occasion (here: the output path, the only other parameter the source
function receives) — the source reads no ambient state, uses no
randomness, and its numpy/Biopython steps are deterministic functions of
the parsed coordinates. -/
theorem claim_C5 (rc bc : List Pt) (gap : ℝ) (out1 out2 : List Char) :
    combine_in_python rc bc gap out1 = combine_in_python rc bc gap out2 := rfl
